import Mathlib

/-!
Shallow embedding of `src/blockchain_sim.py`: a single-node UTXO ledger
simulator with wallets, a mempool, proof-of-work mining, and CSV/JSON export.

Modelling conventions:
* Python `float` amounts and timestamps are modelled as exact rationals `ℚ`.
* A Python `dict` keyed by `(txid, vout)` is modelled as an association list
  with Python-dict semantics: lookup returns the first (unique) entry,
  assignment overwrites in place when the key is present and appends at the
  end otherwise, deletion removes the entry.
* `hashlib.sha256(...).hexdigest()` is implemented bit-for-bit below
  (`sha256hex`); theorems that hold for any digest function are stated over an
  arbitrary `H : String → String`.
* The nondeterministic inputs of `mine_block` (the wall-clock timestamp) and
  the rendering of Python floats inside JSON/CSV text are passed in as
  explicit parameters (`ts : String`, `showNum : ℚ → String`).
* The unbounded `while True` proof-of-work loop is modelled with explicit
  fuel; `none` means the loop has not terminated within `fuel` attempts.
-/

namespace BlockchainSim

attribute [local semireducible] Rat.add Rat.sub Rat.mul Rat.inv

/-- An unspent output record, the values of the `self.utxos` dict:
`{"txid": .., "vout": .., "address": .., "amount": ..}`. -/
structure UTXO where
  txid : String
  vout : Nat
  address : String
  amount : ℚ
deriving DecidableEq, Repr

/-- A transaction input `{"txid": .., "vout": ..}`. -/
structure TxIn where
  txid : String
  vout : Nat
deriving DecidableEq, Repr

/-- A transaction output `{"address": .., "amount": ..}`. -/
structure TxOut where
  address : String
  amount : ℚ
deriving DecidableEq, Repr

/-- A transaction dict with keys `inputs`, `outputs`, `timestamp`, `txid`,
`signature`.  The signature is optional: admission and application never
require it, and `create_tx` builds the dict before the key exists. -/
structure Tx where
  inputs : List TxIn
  outputs : List TxOut
  timestamp : ℚ
  txid : String
  signature : Option String
deriving DecidableEq, Repr

/-- A sealed block dict with keys `timestamp`, `tx`, `miner`, `nonce`, `hash`
(in insertion order; `hash` is added when the proof-of-work search ends). -/
structure Block where
  timestamp : String
  tx : List Tx
  miner : String
  nonce : Nat
  hash : String
deriving DecidableEq, Repr

/-- The key type of the UTXO dict: `(txid, vout)`. -/
abbrev Key := String × Nat

/-- The `self.utxos` dict as an insertion-ordered association list. -/
abbrev UtxoMap := List (Key × UTXO)

/-- The whole `Blockchain` object state: `chain`, `utxos`, `difficulty`,
`mempool`. -/
structure Blockchain where
  chain : List Block
  utxos : UtxoMap
  difficulty : Nat
  mempool : List Tx
deriving DecidableEq, Repr

/-! ### Python dict semantics on association lists -/

/-- Dict lookup `m[k]` / `k in m`: the first entry with key `k`, if any. -/
def dictGet (k : Key) : UtxoMap → Option UTXO
  | [] => none
  | (k', v) :: rest => if k' = k then some v else dictGet k rest

/-- Dict deletion `del m[k]` (guarded by `if k in m`, hence a no-op when the
key is absent): removes every entry with key `k`; on the duplicate-free lists
a Python dict denotes, this is exactly removal of the unique entry. -/
def dictDel (k : Key) : UtxoMap → UtxoMap
  | [] => []
  | (k', v) :: rest => if k' = k then dictDel k rest else (k', v) :: dictDel k rest

/-- Dict assignment `m[k] = v`: overwrite in place when present, append at
the end otherwise (Python dicts preserve insertion order). -/
def dictSet (k : Key) (v : UTXO) : UtxoMap → UtxoMap
  | [] => [(k, v)]
  | (k', v') :: rest => if k' = k then (k, v) :: rest else (k', v') :: dictSet k v rest

/-- The list of keys of the dict, in iteration order. -/
def keys (m : UtxoMap) : List Key := m.map Prod.fst

/-- Total value held in the UTXO store: the sum of all stored amounts. -/
def storeTotal (m : UtxoMap) : ℚ := (m.map fun p => p.2.amount).sum

/-! ### Ledger operations (`class Blockchain`) -/

/-- The `genesis` method: inserts an unspent output
`("genesis" + str(len(chain)+1), 0) ↦ {txid, 0, address, amount}`. -/
def genesis (bc : Blockchain) (address : String) (amount : ℚ) : Blockchain :=
  let txid := "genesis" ++ toString (bc.chain.length + 1)
  { bc with utxos := dictSet (txid, 0) ⟨txid, 0, address, amount⟩ bc.utxos }

/-- The input-resolution loop of `verify_tx`: looks each input's
`(txid, vout)` up in the store and accumulates `total_in`; `none` models the
early `return False` on the first unresolved input. -/
def sumInputs (m : UtxoMap) : List TxIn → Option ℚ
  | [] => some 0
  | i :: rest =>
    match dictGet (i.txid, i.vout) m with
    | none => none
    | some u =>
      match sumInputs m rest with
      | none => none
      | some t => some (u.amount + t)

/-- The `total_out` accumulation of `verify_tx`: the sum of the output
amounts. -/
def totalOut (tx : Tx) : ℚ := (tx.outputs.map TxOut.amount).sum

/-- The `verify_tx` method: every input must resolve in the UTXO store and
`total_in >= total_out`. -/
def verify_tx (bc : Blockchain) (tx : Tx) : Bool :=
  match sumInputs bc.utxos tx.inputs with
  | none => false
  | some total_in => decide (totalOut tx ≤ total_in)

/-- The `add_tx` method: append to the mempool and return `True` when
`verify_tx` passes, otherwise return `False` leaving the state untouched.
The mutated object and the returned boolean are paired. -/
def add_tx (bc : Blockchain) (tx : Tx) : Blockchain × Bool :=
  if verify_tx bc tx then ({ bc with mempool := bc.mempool ++ [tx] }, true)
  else (bc, false)

/-- The `apply_tx` method acting on the store: delete every input key that is
present, then insert each output under `(tx.txid, index)`. -/
def apply_tx (m : UtxoMap) (tx : Tx) : UtxoMap :=
  let afterDel := tx.inputs.foldl (fun m i => dictDel (i.txid, i.vout) m) m
  tx.outputs.enum.foldl
    (fun m p => dictSet (tx.txid, p.1) ⟨tx.txid, p.1, p.2.address, p.2.amount⟩ m)
    afterDel

/-- The balance computed by the driver script:
`sum(u["amount"] for u in chain.utxos.values() if u["address"] == w.address)`. -/
def balanceOf (bc : Blockchain) (address : String) : ℚ :=
  ((bc.utxos.filter fun p => decide (p.2.address = address)).map fun p => p.2.amount).sum

/-! ### JSON serialization (`json.dumps`)

Object keys are written out explicitly in the order `json.dumps` emits them:
alphabetical for the `sort_keys=True` call in `mine_block`, insertion order
for the `indent=2` call in `export_data`.  Python floats are rendered by the
explicit `showNum` parameter. -/

/-- Lower-case hexadecimal digit for a nibble. -/
def hexDigit (n : Nat) : Char :=
  if n < 10 then Char.ofNat (48 + n) else Char.ofNat (87 + n)

/-- Four-digit lower-case hexadecimal rendering, as in a `\u` escape. -/
def hex4 (n : Nat) : String :=
  String.mk [hexDigit (n / 4096 % 16), hexDigit (n / 256 % 16),
             hexDigit (n / 16 % 16), hexDigit (n % 16)]

/-- JSON escaping of a single character, as `json.dumps` does with the
default `ensure_ascii=True`: printable ASCII other than quote and backslash
is kept, the named escapes are used where they exist, everything else becomes
`\uXXXX` (with a surrogate pair beyond the basic plane). -/
def jsonEscapeChar (c : Char) : String :=
  if c = '"' then "\\\""
  else if c = '\\' then "\\\\"
  else if c = '\n' then "\\n"
  else if c = '\r' then "\\r"
  else if c = '\t' then "\\t"
  else if c.toNat = 8 then "\\b"
  else if c.toNat = 12 then "\\f"
  else if 32 ≤ c.toNat ∧ c.toNat ≤ 126 then String.mk [c]
  else if c.toNat < 65536 then "\\u" ++ hex4 c.toNat
  else
    let n := c.toNat - 65536
    "\\u" ++ hex4 (55296 + n / 1024) ++ "\\u" ++ hex4 (56320 + n % 1024)

/-- A JSON string literal: quoted, escaped contents. -/
def jsonStr (s : String) : String :=
  "\"" ++ String.join (s.data.map jsonEscapeChar) ++ "\""

/-- A compact JSON array with the default item separator `", "`. -/
def arrJson (items : List String) : String :=
  "[" ++ String.intercalate (", ") items ++ "]"

/-- An input dict serialized compactly with sorted keys
(`txid` before `vout`). -/
def txInJsonSorted (i : TxIn) : String :=
  "\x7b\"txid\": " ++ jsonStr i.txid ++ ", \"vout\": " ++ toString i.vout ++ "\x7d"

/-- An output dict serialized compactly with sorted keys
(`address` before `amount`). -/
def txOutJsonSorted (showNum : ℚ → String) (o : TxOut) : String :=
  "\x7b\"address\": " ++ jsonStr o.address ++ ", \"amount\": " ++ showNum o.amount ++ "\x7d"

/-- A transaction dict serialized compactly with sorted keys
(`inputs` < `outputs` < `signature` < `timestamp` < `txid`); a missing
`signature` key is simply absent. -/
def txJsonSorted (showNum : ℚ → String) (tx : Tx) : String :=
  "\x7b\"inputs\": " ++ arrJson (tx.inputs.map txInJsonSorted)
    ++ ", \"outputs\": " ++ arrJson (tx.outputs.map (txOutJsonSorted showNum))
    ++ (match tx.signature with
        | some s => ", \"signature\": " ++ jsonStr s
        | none => "")
    ++ ", \"timestamp\": " ++ showNum tx.timestamp
    ++ ", \"txid\": " ++ jsonStr tx.txid
    ++ "\x7d"

/-- The `json.dumps(block, sort_keys=True)` serialization of the block
skeleton built in `mine_block` (keys `miner` < `nonce` < `timestamp` < `tx`;
no `hash` key exists yet at that point). -/
def blockJson (showNum : ℚ → String) (ts : String) (txs : List Tx)
    (miner : String) (nonce : Nat) : String :=
  "\x7b\"miner\": " ++ jsonStr miner
    ++ ", \"nonce\": " ++ toString nonce
    ++ ", \"timestamp\": " ++ jsonStr ts
    ++ ", \"tx\": " ++ arrJson (txs.map (txJsonSorted showNum))
    ++ "\x7d"

/-! ### SHA-256 (`hashlib.sha256(...).hexdigest()`)

A direct implementation of FIPS 180-4 over byte lists, with 32-bit words as
naturals reduced modulo `2 ^ 32`. -/

/-- One more than the largest 32-bit word. -/
def w32 : Nat := 4294967296

/-- The 64 SHA-256 round constants (fractional parts of the cube roots of
the first 64 primes). -/
def sha_K : List Nat :=
  [1116352408, 1899447441, 3049323471, 3921009573, 961987163, 1508970993,
   2453635748, 2870763221, 3624381080, 310598401, 607225278, 1426881987,
   1925078388, 2162078206, 2614888103, 3248222580, 3835390401, 4022224774,
   264347078, 604807628, 770255983, 1249150122, 1555081692, 1996064986,
   2554220882, 2821834349, 2952996808, 3210313671, 3336571891, 3584528711,
   113926993, 338241895, 666307205, 773529912, 1294757372, 1396182291,
   1695183700, 1986661051, 2177026350, 2456956037, 2730485921, 2820302411,
   3259730800, 3345764771, 3516065817, 3600352804, 4094571909, 275423344,
   430227734, 506948616, 659060556, 883997877, 958139571, 1322822218,
   1537002063, 1747873779, 1955562222, 2024104815, 2227730452, 2361852424,
   2428436474, 2756734187, 3204031479, 3329325298]

/-- The initial SHA-256 hash state (fractional parts of the square roots of
the first 8 primes). -/
def sha_H0 : List Nat :=
  [1779033703, 3144134277, 1013904242, 2773480762, 1359893119, 2600822924,
   528734635, 1541459225]

/-- Right rotation of a 32-bit word. -/
def rotr (n x : Nat) : Nat := ((x >>> n) ||| (x <<< (32 - n))) % w32

/-- UTF-8 encoding of one character (what `str.encode()` does per code
point). -/
def charUtf8 (c : Char) : List Nat :=
  let n := c.toNat
  if n < 128 then [n]
  else if n < 2048 then [192 + n / 64, 128 + n % 64]
  else if n < 65536 then [224 + n / 4096, 128 + n / 64 % 64, 128 + n % 64]
  else [240 + n / 262144, 128 + n / 4096 % 64, 128 + n / 64 % 64, 128 + n % 64]

/-- UTF-8 encoding of a string as a byte list (`str.encode()`). -/
def utf8Bytes (s : String) : List Nat := s.data.flatMap charUtf8

/-- Big-endian rendering of `n` into `k` bytes. -/
def beBytes : Nat → Nat → List Nat
  | 0, _ => []
  | k + 1, n => beBytes k (n / 256) ++ [n % 256]

/-- Big-endian word value of a byte list. -/
def beWord (bs : List Nat) : Nat := bs.foldl (fun a b => a * 256 + b) 0

/-- SHA-256 message padding: `0x80`, zero bytes up to 56 mod 64, then the
bit length in 8 big-endian bytes. -/
def padMsg (msg : List Nat) : List Nat :=
  let zs := (119 - msg.length % 64) % 64
  msg ++ [128] ++ List.replicate zs 0 ++ beBytes 8 (8 * msg.length)

/-- Splitting a list into `n` consecutive chunks of size `k`. -/
def chunksOf (k : Nat) : Nat → List Nat → List (List Nat)
  | 0, _ => []
  | n + 1, bs => bs.take k :: chunksOf k n (bs.drop k)

/-- The σ0 message-schedule function. -/
def smallSigma0 (x : Nat) : Nat := rotr 7 x ^^^ rotr 18 x ^^^ (x >>> 3)

/-- The σ1 message-schedule function. -/
def smallSigma1 (x : Nat) : Nat := rotr 17 x ^^^ rotr 19 x ^^^ (x >>> 10)

/-- The Σ0 compression function. -/
def bigSigma0 (x : Nat) : Nat := rotr 2 x ^^^ rotr 13 x ^^^ rotr 22 x

/-- The Σ1 compression function. -/
def bigSigma1 (x : Nat) : Nat := rotr 6 x ^^^ rotr 11 x ^^^ rotr 25 x

/-- The Ch bitwise choice function (with 32-bit complement). -/
def chFn (e f g : Nat) : Nat := (e &&& f) ^^^ ((4294967295 ^^^ e) &&& g)

/-- The Maj bitwise majority function. -/
def majFn (a b c : Nat) : Nat := (a &&& b) ^^^ (a &&& c) ^^^ (b &&& c)

/-- Extending the 16-word message schedule to 64 words. -/
def extendSchedule (ws : List Nat) : Nat → List Nat
  | 0 => ws
  | k + 1 =>
    let i := ws.length
    let nw := (ws.getD (i - 16) 0 + smallSigma0 (ws.getD (i - 15) 0)
               + ws.getD (i - 7) 0 + smallSigma1 (ws.getD (i - 2) 0)) % w32
    extendSchedule (ws ++ [nw]) k

/-- One compression round on the working state `[a,b,c,d,e,f,g,h]`, given a
round constant paired with a schedule word. -/
def compressStep (st : List Nat) (kw : Nat × Nat) : List Nat :=
  match st with
  | [a, b, c, d, e, f, g, h] =>
    let t1 := (h + bigSigma1 e + chFn e f g + kw.1 + kw.2) % w32
    let t2 := (bigSigma0 a + majFn a b c) % w32
    [(t1 + t2) % w32, a, b, c, (d + t1) % w32, e, f, g]
  | other => other

/-- Processing one 64-byte chunk into the running hash value. -/
def processChunk (hv : List Nat) (chunk : List Nat) : List Nat :=
  let ws := extendSchedule ((chunksOf 4 16 chunk).map beWord) 48
  let st := (sha_K.zip ws).foldl compressStep hv
  (hv.zip st).map fun p => (p.1 + p.2) % w32

/-- SHA-256 of a byte list, as the list of the 8 final 32-bit words. -/
def sha256words (msg : List Nat) : List Nat :=
  let padded := padMsg msg
  (chunksOf 64 (padded.length / 64) padded).foldl processChunk sha_H0

/-- The `hashlib.sha256(s.encode()).hexdigest()` function: UTF-8 encode,
hash, render as 64 lower-case hex characters. -/
def sha256hex (s : String) : String :=
  String.join ((sha256words (utf8Bytes s)).map fun n =>
    hex4 (n / 65536 % 65536) ++ hex4 (n % 65536))

/-! ### Proof-of-work search and `mine_block` -/

/-- The `hash_try.startswith("0" * difficulty)` test: the leading
`difficulty` characters of the digest are all `'0'`. -/
def hitsTarget (d : Nat) (s : String) : Bool :=
  decide (s.data.take d = List.replicate d '0')

/-- The `while True` proof-of-work loop of `mine_block`, with explicit fuel:
hash `block_json + str(nonce)`, return the winning nonce and digest when the
target is hit, otherwise increment the nonce; `none` means the loop has not
terminated within `fuel` iterations. -/
def powSearch (H : String → String) (d : Nat) (s : String) : Nat → Nat → Option (Nat × String)
  | 0, _ => none
  | fuel + 1, nonce =>
    let h := H (s ++ toString nonce)
    if hitsTarget d h then some (nonce, h) else powSearch H d s fuel (nonce + 1)

/-- The `mine_block` method: serialize the skeleton
`{timestamp, tx: mempool, miner, nonce: 0}` once, run the proof-of-work
search, then apply every mempool transaction in order, clear the mempool and
append the sealed block.  `H` is the hex digest function, `ts` the wall-clock
timestamp string, and `fuel` bounds the otherwise unbounded search. -/
def mine_block (H : String → String) (showNum : ℚ → String) (fuel : Nat)
    (bc : Blockchain) (minerAddress : String) (ts : String) : Option Blockchain :=
  let block_json := blockJson showNum ts bc.mempool minerAddress 0
  match powSearch H bc.difficulty block_json fuel 0 with
  | none => none
  | some (nonce, h) =>
    some { bc with
      utxos := bc.mempool.foldl apply_tx bc.utxos,
      mempool := [],
      chain := bc.chain ++ [Block.mk ts bc.mempool minerAddress nonce h] }

/-! ### Transaction builder (`create_tx`) -/

/-- Python `round(x, 4)`: rounding to four decimal places.  Mathlib's `round`
rounds ties away from the floor whereas Python rounds ties to even, but no
value in this development (nor in the repository's scenarios) hits a tie. -/
def round4 (x : ℚ) : ℚ := ((round (x * 10000) : ℤ) : ℚ) / 10000

/-- The greedy input-selection loop of `create_tx`: scan the store in
iteration order, pick entries owned by the sender, accumulate `total_in`,
and stop as soon as the running total covers the requested target. -/
def selectInputs (address : String) (target : ℚ) :
    UtxoMap → List TxIn → ℚ → List TxIn × ℚ
  | [], ins, tot => (ins, tot)
  | (_, u) :: rest, ins, tot =>
    if u.address = address then
      let ins' := ins ++ [TxIn.mk u.txid u.vout]
      let tot' := tot + u.amount
      if target ≤ tot' then (ins', tot') else selectInputs address target rest ins' tot'
    else selectInputs address target rest ins tot

/-- The `create_tx` helper: select inputs greedily, fail (`none`) when
`total_in == 0`, emit the requested outputs in order, append a change output
back to the sender when `round(total_in - total_out - 0.0001, 4)` is
positive, then attach the content-derived id and the signature.  The id
computation (`sha256` of the json dump of the partial dict) and the wallet's
`sign` are passed in as the opaque functions `mkTxid` and `sign`; `now`
stands for `time.time()`. -/
def create_tx (mkTxid : List TxIn → List TxOut → ℚ → String) (sign : String → String)
    (address : String) (bc : Blockchain) (recipients : List (String × ℚ))
    (now : ℚ) : Option Tx :=
  let target := (recipients.map Prod.snd).sum
  let sel := selectInputs address target bc.utxos [] 0
  if sel.2 = 0 then none
  else
    let outs := recipients.map fun r => TxOut.mk r.1 r.2
    let change := round4 (sel.2 - target - 1 / 10000)
    let outputs := if 0 < change then outs ++ [TxOut.mk address change] else outs
    let tid := mkTxid sel.1 outputs now
    some (Tx.mk sel.1 outputs now tid (some (sign tid)))

/-! ### Export (`export_data`) -/

/-- Spaces used by `json.dumps(..., indent=2)` indentation. -/
def pad (n : Nat) : String := String.mk (List.replicate n ' ')

/-- A JSON array under `indent=2`: items each on their own line indented two
further spaces, separated by `",\n"`; an empty array collapses to `[]`. -/
def arrIndent (n : Nat) (items : List String) : String :=
  match items with
  | [] => "[]"
  | _ =>
    "[\n" ++ String.intercalate (",\n") (items.map fun s => pad (n + 2) ++ s)
      ++ "\n" ++ pad n ++ "]"

/-- A JSON object under `indent=2`: fields each on their own line indented
two further spaces; an empty object collapses to `\x7b\x7d`. -/
def objIndent (n : Nat) (fields : List (String × String)) : String :=
  match fields with
  | [] => "\x7b\x7d"
  | _ =>
    "\x7b\n"
      ++ String.intercalate (",\n")
          (fields.map fun f => pad (n + 2) ++ jsonStr f.1 ++ (": ") ++ f.2)
      ++ "\n" ++ pad n ++ "\x7d"

/-- An input dict in the indented chain dump (insertion key order). -/
def txInJsonIndent (n : Nat) (i : TxIn) : String :=
  objIndent n [("txid", jsonStr i.txid), ("vout", toString i.vout)]

/-- An output dict in the indented chain dump (insertion key order). -/
def txOutJsonIndent (showNum : ℚ → String) (n : Nat) (o : TxOut) : String :=
  objIndent n [("address", jsonStr o.address), ("amount", showNum o.amount)]

/-- A transaction dict in the indented chain dump, keys in insertion order:
`inputs`, `outputs`, `timestamp`, then the later-assigned `txid` and
`signature`. -/
def txJsonIndent (showNum : ℚ → String) (n : Nat) (tx : Tx) : String :=
  objIndent n
    ([("inputs", arrIndent (n + 2) (tx.inputs.map (txInJsonIndent (n + 4)))),
      ("outputs", arrIndent (n + 2) (tx.outputs.map (txOutJsonIndent showNum (n + 4)))),
      ("timestamp", showNum tx.timestamp),
      ("txid", jsonStr tx.txid)]
      ++ (match tx.signature with
          | some s => [("signature", jsonStr s)]
          | none => []))

/-- A sealed block dict in the indented chain dump, keys in insertion order:
`timestamp`, `tx`, `miner`, `nonce`, then the later-assigned `hash`. -/
def blockJsonIndent (showNum : ℚ → String) (n : Nat) (b : Block) : String :=
  objIndent n
    [("timestamp", jsonStr b.timestamp),
     ("tx", arrIndent (n + 2) (b.tx.map (txJsonIndent showNum (n + 4)))),
     ("miner", jsonStr b.miner),
     ("nonce", toString b.nonce),
     ("hash", jsonStr b.hash)]

/-- The `json.dumps(self.chain, indent=2)` dump written to `chain.json`. -/
def chainDump (showNum : ℚ → String) (chain : List Block) : String :=
  arrIndent 0 (chain.map (blockJsonIndent showNum 2))

/-- Minimal-quoting rule of `csv.writer`: a field is quoted when it contains
a delimiter, a quote, or a line-terminator character. -/
def csvNeedsQuote (s : String) : Bool :=
  s.data.any fun c => decide (c = ',' ∨ c = '"' ∨ c = '\r' ∨ c = '\n')

/-- A CSV field, quoted with doubled inner quotes when necessary. -/
def csvField (s : String) : String :=
  if csvNeedsQuote s then
    "\"" ++ String.join (s.data.map fun c => if c = '"' then "\"\"" else String.mk [c]) ++ "\""
  else s

/-- One `writer.writerow(...)` line: comma-separated fields and the default
`"\r\n"` terminator. -/
def csvRow (fields : List String) : String :=
  String.intercalate (",") (fields.map csvField) ++ "\r\n"

/-- The `utxos.csv` table written by `export_data`: a header row, then one
row per live UTXO in store iteration order. -/
def utxosCsv (showNum : ℚ → String) (m : UtxoMap) : String :=
  csvRow ["txid", "vout", "address", "amount"]
    ++ String.join (m.map fun p => csvRow [p.1.1, toString p.1.2, p.2.address, showNum p.2.amount])

/-- The `export_data` method as the pair of byte strings it writes to
`chain.json` and `utxos.csv`. -/
def export_data (showNum : ℚ → String) (bc : Blockchain) : String × String :=
  (chainDump showNum bc.chain, utxosCsv showNum bc.utxos)

/-! ### Derived notions used by the statements -/

/-- The store keys a transaction claims to spend, in input order. -/
def inKeys (tx : Tx) : List Key := tx.inputs.map fun i => (i.txid, i.vout)

/-- The store keys under which a transaction's outputs are inserted by
`apply_tx`: `(tx.txid, index)` for each output index. -/
def outKeys (tx : Tx) : List Key :=
  (List.range tx.outputs.length).map fun idx => (tx.txid, idx)

/-- The exact entries `apply_tx` inserts for a transaction's outputs. -/
def outEntries (tx : Tx) : List (Key × UTXO) :=
  tx.outputs.enum.map fun p => ((tx.txid, p.1), UTXO.mk tx.txid p.1 p.2.address p.2.amount)

/-- A transaction with its signature field dropped. -/
def eraseSig (tx : Tx) : Tx := { tx with signature := none }

/-! ### Concrete fixtures used in counterexamples and witnesses -/

/-- Fixture ledger: a single 1-unit UTXO at key `("g", 0)` owned by `"A"`,
difficulty 0 so that mining succeeds on the first nonce. -/
def oneCoinBC : Blockchain := Blockchain.mk [] [(("g", 0), UTXO.mk "g" 0 "A" 1)] 0 []

/-- Fixture transaction: spends the `("g", 0)` output twice and declares a
single 2-unit output. -/
def dupSpendTx : Tx := Tx.mk [TxIn.mk "g" 0, TxIn.mk "g" 0] [TxOut.mk "B" 2] 0 "d" none

/-- Fixture ledger: a single 3-unit UTXO at key `("h", 0)`, difficulty 0. -/
def threeCoinBC : Blockchain := Blockchain.mk [] [(("h", 0), UTXO.mk "h" 0 "A" 3)] 0 []

/-- Fixture transaction: spends `("h", 0)` twice and declares 5 units of
outputs. -/
def dupSpendTx5 : Tx := Tx.mk [TxIn.mk "h" 0, TxIn.mk "h" 0] [TxOut.mk "B" 5] 0 "e" none

/-- Fixture ledger: one 1-unit UTXO at `("a", 0)`, difficulty 0. -/
def selfRefBC : Blockchain := Blockchain.mk [] [(("a", 0), UTXO.mk "a" 0 "A" 1)] 0 []

/-- Fixture transaction: its txid is `"a"`, and it spends `("a", 0)`, so its
first output is re-inserted under the key it just consumed. -/
def selfRefTx : Tx := Tx.mk [TxIn.mk "a" 0] [TxOut.mk "B" 1] 0 "a" none

/-- Fixture ledger: a zero-amount UTXO owned by `"A"`. -/
def zeroCoinBC : Blockchain := Blockchain.mk [] [(("g", 0), UTXO.mk "g" 0 "A" 0)] 3 []

/-- Fixture ledger: a 0.00014-unit UTXO owned by `"A"`. -/
def tinyCoinBC : Blockchain :=
  Blockchain.mk [] [(("g", 0), UTXO.mk "g" 0 "A" (7 / 50000))] 3 []

/-- Fixture ledger: one 1-unit UTXO spent by the single mempool transaction
`"x"` paying 1 unit to `"B"`; difficulty 0. -/
def simpleMineBC : Blockchain :=
  Blockchain.mk [] [(("g", 0), UTXO.mk "g" 0 "A" 1)] 0
    [Tx.mk [TxIn.mk "g" 0] [TxOut.mk "B" 1] 0 "x" none]

/-! ## Lemmas: Python dict semantics -/

theorem dictGet_eq_none_iff (k : Key) (m : UtxoMap) :
    dictGet k m = none ↔ k ∉ keys m := by
  induction m with
  | nil => simp [dictGet, keys]
  | cons p rest ih =>
    obtain ⟨k', v⟩ := p
    by_cases h : k' = k
    · subst h; simp [dictGet, keys]
    · simp [dictGet, keys, h, ih, Ne.symm h]

theorem dictGet_dictDel_self (k : Key) (m : UtxoMap) :
    dictGet k (dictDel k m) = none := by
  induction m with
  | nil => simp [dictDel, dictGet]
  | cons p rest ih =>
    obtain ⟨k', v⟩ := p
    by_cases h : k' = k
    · simpa [dictDel, h] using ih
    · simpa [dictDel, dictGet, h] using ih

theorem dictGet_dictDel_ne (k k' : Key) (m : UtxoMap) (h : k ≠ k') :
    dictGet k (dictDel k' m) = dictGet k m := by
  induction m with
  | nil => simp [dictDel]
  | cons p rest ih =>
    obtain ⟨k'', v⟩ := p
    by_cases h2 : k'' = k'
    · subst h2
      simp [dictDel, dictGet, Ne.symm h, ih]
    · by_cases h3 : k'' = k
      · subst h3
        simp [dictDel, dictGet, h2, h]
      · simp [dictDel, dictGet, h2, h3, ih]

theorem keys_dictDel_sublist (k : Key) (m : UtxoMap) :
    (keys (dictDel k m)).Sublist (keys m) := by
  induction m with
  | nil => simp [dictDel, keys]
  | cons p rest ih =>
    obtain ⟨k', v⟩ := p
    by_cases h : k' = k
    · simpa [dictDel, keys, h] using ih.trans (List.sublist_cons_self _ _)
    · simpa [dictDel, keys, h] using ih.cons₂ k'

theorem dictDel_of_not_mem (k : Key) (m : UtxoMap) (h : k ∉ keys m) :
    dictDel k m = m := by
  induction m with
  | nil => simp [dictDel]
  | cons p rest ih =>
    obtain ⟨k', v⟩ := p
    simp only [keys, List.map_cons, List.mem_cons] at h
    push_neg at h
    simp [dictDel, Ne.symm h.1, ih (by simpa [keys] using h.2)]

theorem storeTotal_cons (p : Key × UTXO) (m : UtxoMap) :
    storeTotal (p :: m) = p.2.amount + storeTotal m := by
  simp [storeTotal]

theorem storeTotal_append (m₁ m₂ : UtxoMap) :
    storeTotal (m₁ ++ m₂) = storeTotal m₁ + storeTotal m₂ := by
  simp [storeTotal]

theorem storeTotal_dictDel (k : Key) (u : UTXO) (m : UtxoMap)
    (hnd : (keys m).Nodup) (hget : dictGet k m = some u) :
    storeTotal (dictDel k m) = storeTotal m - u.amount := by
  induction m with
  | nil => simp [dictGet] at hget
  | cons p rest ih =>
    obtain ⟨k', v⟩ := p
    simp only [keys, List.map_cons, List.nodup_cons] at hnd
    by_cases h : k' = k
    · subst h
      have hvu : v = u := by simpa [dictGet] using hget
      subst hvu
      have hrest : dictDel k' rest = rest :=
        dictDel_of_not_mem _ _ (by simpa [keys] using hnd.1)
      simp only [dictDel, eq_self_iff_true, if_true, hrest, storeTotal_cons]
      ring
    · simp only [dictGet, if_neg h] at hget
      simp only [dictDel, if_neg h, storeTotal_cons, ih hnd.2 hget]
      ring

theorem dictGet_dictSet_self (k : Key) (v : UTXO) (m : UtxoMap) :
    dictGet k (dictSet k v m) = some v := by
  induction m with
  | nil => simp [dictSet, dictGet]
  | cons p rest ih =>
    obtain ⟨k', v'⟩ := p
    by_cases h : k' = k
    · simp [dictSet, dictGet, h]
    · simp [dictSet, dictGet, h, ih]

theorem dictGet_dictSet_ne (k k' : Key) (v : UTXO) (m : UtxoMap) (h : k ≠ k') :
    dictGet k (dictSet k' v m) = dictGet k m := by
  induction m with
  | nil => simp [dictSet, dictGet, Ne.symm h]
  | cons p rest ih =>
    obtain ⟨k'', v'⟩ := p
    by_cases h2 : k'' = k'
    · subst h2
      simp [dictSet, dictGet, Ne.symm h, fun hh : k'' = k => h (hh ▸ rfl)]
    · by_cases h3 : k'' = k
      · subst h3
        simp [dictSet, dictGet, h2, h]
      · simp [dictSet, dictGet, h2, h3, ih]

theorem dictSet_of_not_mem (k : Key) (v : UTXO) (m : UtxoMap) (h : k ∉ keys m) :
    dictSet k v m = m ++ [(k, v)] := by
  induction m with
  | nil => simp [dictSet]
  | cons p rest ih =>
    obtain ⟨k', v'⟩ := p
    simp only [keys, List.map_cons, List.mem_cons] at h
    push_neg at h
    simp [dictSet, Ne.symm h.1, ih (by simpa [keys] using h.2)]

/-! ## Lemmas: input resolution (`verify_tx`'s loop) -/

theorem sumInputs_congr (m₁ m₂ : UtxoMap) (ins : List TxIn)
    (h : ∀ i ∈ ins, dictGet (i.txid, i.vout) m₁ = dictGet (i.txid, i.vout) m₂) :
    sumInputs m₁ ins = sumInputs m₂ ins := by
  induction ins with
  | nil => rfl
  | cons i rest ih =>
    simp only [sumInputs]
    rw [h i (by simp), ih fun j hj => h j (by simp [hj])]

theorem sumInputs_none_of_absent (m : UtxoMap) (ins : List TxIn) (i : TxIn)
    (hi : i ∈ ins) (h : dictGet (i.txid, i.vout) m = none) :
    sumInputs m ins = none := by
  induction ins with
  | nil => simp at hi
  | cons j rest ih =>
    rcases List.mem_cons.mp hi with rfl | hmem
    · simp [sumInputs, h]
    · simp only [sumInputs]
      cases dictGet (j.txid, j.vout) m with
      | none => rfl
      | some u => rw [ih hmem]

theorem sumInputs_resolves (m : UtxoMap) (ins : List TxIn) (t : ℚ)
    (h : sumInputs m ins = some t) :
    ∀ i ∈ ins, ∃ u, dictGet (i.txid, i.vout) m = some u := by
  intro i hi
  cases hget : dictGet (i.txid, i.vout) m with
  | some u => exact ⟨u, rfl⟩
  | none => rw [sumInputs_none_of_absent m ins i hi hget] at h; cases h

/-! ## Lemmas: the deletion fold of `apply_tx` -/

theorem dictGet_delFold_ne (ins : List TxIn) (m : UtxoMap) (k : Key)
    (h : ∀ i ∈ ins, (i.txid, i.vout) ≠ k) :
    dictGet k (ins.foldl (fun m i => dictDel (i.txid, i.vout) m) m) = dictGet k m := by
  induction ins generalizing m with
  | nil => rfl
  | cons i rest ih =>
    rw [List.foldl_cons, ih _ fun j hj => h j (by simp [hj]),
      dictGet_dictDel_ne _ _ _ (Ne.symm (h i (by simp)))]

theorem dictGet_delFold_none (ins : List TxIn) (m : UtxoMap) (k : Key)
    (h : dictGet k m = none) :
    dictGet k (ins.foldl (fun m i => dictDel (i.txid, i.vout) m) m) = none := by
  induction ins generalizing m with
  | nil => exact h
  | cons i rest ih =>
    rw [List.foldl_cons]
    refine ih _ ?_
    by_cases hk : (i.txid, i.vout) = k
    · rw [← hk]; exact dictGet_dictDel_self _ _
    · rw [dictGet_dictDel_ne _ _ _ (Ne.symm hk)]; exact h

theorem dictGet_delFold_mem (ins : List TxIn) (m : UtxoMap) (i : TxIn) (hi : i ∈ ins) :
    dictGet (i.txid, i.vout) (ins.foldl (fun m i => dictDel (i.txid, i.vout) m) m) = none := by
  induction ins generalizing m with
  | nil => simp at hi
  | cons j rest ih =>
    rcases List.mem_cons.mp hi with rfl | hmem
    · rw [List.foldl_cons]
      exact dictGet_delFold_none _ _ _ (dictGet_dictDel_self _ _)
    · exact ih _ hmem

theorem keys_delFold_sublist (ins : List TxIn) (m : UtxoMap) :
    (keys (ins.foldl (fun m i => dictDel (i.txid, i.vout) m) m)).Sublist (keys m) := by
  induction ins generalizing m with
  | nil => exact List.Sublist.refl _
  | cons i rest ih =>
    exact (ih _).trans (keys_dictDel_sublist _ _)

theorem storeTotal_delFold (ins : List TxIn) (m : UtxoMap) (t : ℚ)
    (hnd : (keys m).Nodup)
    (hins : (ins.map fun i => (i.txid, i.vout)).Nodup)
    (hsum : sumInputs m ins = some t) :
    storeTotal (ins.foldl (fun m i => dictDel (i.txid, i.vout) m) m)
      = storeTotal m - t := by
  induction ins generalizing m t with
  | nil =>
    simp only [sumInputs, Option.some.injEq] at hsum
    simp [← hsum]
  | cons i rest ih =>
    simp only [List.map_cons, List.nodup_cons] at hins
    obtain ⟨u, hget⟩ := sumInputs_resolves m (i :: rest) t hsum i (by simp)
    simp only [sumInputs, hget] at hsum
    cases hrest : sumInputs m rest with
    | none => rw [hrest] at hsum; cases hsum
    | some t' =>
      rw [hrest] at hsum
      obtain ⟨rfl⟩ := Option.some.injEq .. ▸ hsum
      have hm' : sumInputs (dictDel (i.txid, i.vout) m) rest = some t' := by
        rw [sumInputs_congr _ m rest ?_]
        · exact hrest
        · intro j hj
          exact dictGet_dictDel_ne _ _ _ fun he => hins.1 (he ▸ (List.mem_map_of_mem _ hj))
      rw [List.foldl_cons,
        ih _ _ (hnd.sublist (keys_dictDel_sublist _ _)) hins.2 hm',
        storeTotal_dictDel _ _ _ hnd hget]
      ring

/-! ## Lemmas: the insertion fold of `apply_tx` -/

theorem dictGet_insFold_ne (news : List (Key × UTXO)) (m : UtxoMap) (k : Key)
    (h : ∀ p ∈ news, p.1 ≠ k) :
    dictGet k (news.foldl (fun m p => dictSet p.1 p.2 m) m) = dictGet k m := by
  induction news generalizing m with
  | nil => rfl
  | cons p rest ih =>
    rw [List.foldl_cons, ih _ fun q hq => h q (by simp [hq]),
      dictGet_dictSet_ne _ _ _ _ (Ne.symm (h p (by simp)))]

theorem dictGet_insFold_mem (news : List (Key × UTXO)) (m : UtxoMap) (k : Key) (v : UTXO)
    (hnd : (news.map Prod.fst).Nodup) (hmem : (k, v) ∈ news) :
    dictGet k (news.foldl (fun m p => dictSet p.1 p.2 m) m) = some v := by
  induction news generalizing m with
  | nil => simp at hmem
  | cons p rest ih =>
    simp only [List.map_cons, List.nodup_cons] at hnd
    rcases List.mem_cons.mp hmem with rfl | hmem'
    · rw [List.foldl_cons,
        dictGet_insFold_ne _ _ _
          fun q hq he => hnd.1 (by simpa [← he] using List.mem_map_of_mem Prod.fst hq),
        dictGet_dictSet_self]
    · exact ih _ hnd.2 hmem'

theorem keys_insFold_fresh (news : List (Key × UTXO)) (m : UtxoMap)
    (hnd : (news.map Prod.fst).Nodup)
    (hfresh : ∀ p ∈ news, p.1 ∉ keys m) :
    keys (news.foldl (fun m p => dictSet p.1 p.2 m) m) = keys m ++ news.map Prod.fst := by
  induction news generalizing m with
  | nil => simp
  | cons p rest ih =>
    simp only [List.map_cons, List.nodup_cons] at hnd
    rw [List.foldl_cons, dictSet_of_not_mem _ _ _ (hfresh p (by simp)), ih _ hnd.2 ?_]
    · simp [keys]
    · intro q hq
      simp only [keys, List.map_append, List.mem_append, List.map_cons, List.map_nil,
        List.mem_singleton]
      rintro (hmem | hmem)
      · exact hfresh q (by simp [hq]) hmem
      · exact hnd.1 (by simpa [← hmem] using List.mem_map_of_mem Prod.fst hq)

theorem storeTotal_insFold_fresh (news : List (Key × UTXO)) (m : UtxoMap)
    (hnd : (news.map Prod.fst).Nodup)
    (hfresh : ∀ p ∈ news, p.1 ∉ keys m) :
    storeTotal (news.foldl (fun m p => dictSet p.1 p.2 m) m)
      = storeTotal m + (news.map fun p => p.2.amount).sum := by
  induction news generalizing m with
  | nil => simp
  | cons p rest ih =>
    simp only [List.map_cons, List.nodup_cons] at hnd
    rw [List.foldl_cons, dictSet_of_not_mem _ _ _ (hfresh p (by simp)), ih _ hnd.2 ?_]
    · rw [storeTotal_append]
      simp [storeTotal]
      ring
    · intro q hq
      simp only [keys, List.map_append, List.mem_append, List.map_cons, List.map_nil,
        List.mem_singleton]
      rintro (hmem | hmem)
      · exact hfresh q (by simp [hq]) hmem
      · exact hnd.1 (by simpa [← hmem] using List.mem_map_of_mem Prod.fst hq)

/-! ## Lemmas: `apply_tx` -/

theorem apply_tx_eq (m : UtxoMap) (tx : Tx) :
    apply_tx m tx =
      (outEntries tx).foldl (fun m p => dictSet p.1 p.2 m)
        (tx.inputs.foldl (fun m i => dictDel (i.txid, i.vout) m) m) := by
  simp [apply_tx, outEntries, List.foldl_map]

theorem outEntries_keys (tx : Tx) : (outEntries tx).map Prod.fst = outKeys tx := by
  rw [outEntries, outKeys, List.map_map, ← List.enum_map_fst tx.outputs, List.map_map]
  rfl

theorem outEntries_amounts (tx : Tx) :
    ((outEntries tx).map fun p => p.2.amount).sum = totalOut tx := by
  have h : (outEntries tx).map (fun p => p.2.amount)
      = (tx.outputs.enum.map Prod.snd).map TxOut.amount := by
    rw [outEntries, List.map_map, List.map_map]
    rfl
  rw [totalOut, h, List.enum_map_snd]

theorem outKeys_nodup (tx : Tx) : (outKeys tx).Nodup :=
  (List.nodup_range _).map fun a b h => by simpa using h

theorem mem_outKeys_of_mem_outEntries (tx : Tx) (e : Key × UTXO)
    (he : e ∈ outEntries tx) : e.1 ∈ outKeys tx := by
  rw [← outEntries_keys]
  exact List.mem_map_of_mem _ he

theorem dictGet_apply_tx_ne (m : UtxoMap) (tx : Tx) (k : Key)
    (hin : k ∉ inKeys tx) (hout : k ∉ outKeys tx) :
    dictGet k (apply_tx m tx) = dictGet k m := by
  rw [apply_tx_eq,
    dictGet_insFold_ne _ _ _
      (fun p hp he => hout (by rw [← he]; exact mem_outKeys_of_mem_outEntries tx p hp)),
    dictGet_delFold_ne _ _ _
      (fun i hi he => hin (by rw [← he]; exact List.mem_map_of_mem _ hi))]

theorem dictGet_apply_tx_none (m : UtxoMap) (tx : Tx) (k : Key)
    (h : dictGet k m = none) (hout : k ∉ outKeys tx) :
    dictGet k (apply_tx m tx) = none := by
  rw [apply_tx_eq,
    dictGet_insFold_ne _ _ _
      (fun p hp he => hout (by rw [← he]; exact mem_outKeys_of_mem_outEntries tx p hp)),
    dictGet_delFold_none _ _ _ h]

theorem dictGet_apply_tx_consumed (m : UtxoMap) (tx : Tx) (k : Key)
    (hk : k ∈ inKeys tx) (hout : k ∉ outKeys tx) :
    dictGet k (apply_tx m tx) = none := by
  rw [apply_tx_eq,
    dictGet_insFold_ne _ _ _
      (fun p hp he => hout (by rw [← he]; exact mem_outKeys_of_mem_outEntries tx p hp))]
  obtain ⟨i, hi, rfl⟩ := List.mem_map.mp hk
  exact dictGet_delFold_mem _ _ _ hi

theorem dictGet_apply_tx_output (m : UtxoMap) (tx : Tx) (e : Key × UTXO)
    (he : e ∈ outEntries tx) :
    dictGet e.1 (apply_tx m tx) = some e.2 := by
  rw [apply_tx_eq]
  exact dictGet_insFold_mem _ _ _ _
    (by rw [outEntries_keys]; exact outKeys_nodup tx) (by simpa using he)

theorem keys_apply_tx_eq (m : UtxoMap) (tx : Tx)
    (hfresh : ∀ k ∈ outKeys tx, k ∉ keys m) :
    keys (apply_tx m tx)
      = keys (tx.inputs.foldl (fun m i => dictDel (i.txid, i.vout) m) m) ++ outKeys tx := by
  rw [apply_tx_eq,
    keys_insFold_fresh _ _ (by rw [outEntries_keys]; exact outKeys_nodup tx) ?_,
    outEntries_keys]
  intro p hp hmem
  exact hfresh p.1 (mem_outKeys_of_mem_outEntries tx p hp)
    ((keys_delFold_sublist _ _).subset hmem)

theorem keys_apply_tx_nodup (m : UtxoMap) (tx : Tx)
    (hnd : (keys m).Nodup) (hfresh : ∀ k ∈ outKeys tx, k ∉ keys m) :
    (keys (apply_tx m tx)).Nodup := by
  rw [keys_apply_tx_eq _ _ hfresh]
  refine List.nodup_append.mpr
    ⟨hnd.sublist (keys_delFold_sublist _ _), outKeys_nodup tx, ?_⟩
  intro k hk hout
  exact hfresh k hout ((keys_delFold_sublist _ _).subset hk)

theorem mem_keys_apply_tx (m : UtxoMap) (tx : Tx) (k : Key)
    (hfresh : ∀ k ∈ outKeys tx, k ∉ keys m)
    (hk : k ∈ keys (apply_tx m tx)) : k ∈ keys m ∨ k ∈ outKeys tx := by
  rw [keys_apply_tx_eq _ _ hfresh, List.mem_append] at hk
  rcases hk with hk | hk
  · exact Or.inl ((keys_delFold_sublist _ _).subset hk)
  · exact Or.inr hk

theorem storeTotal_apply_tx (m : UtxoMap) (tx : Tx) (tin : ℚ)
    (hnd : (keys m).Nodup) (hinnd : (inKeys tx).Nodup)
    (hsum : sumInputs m tx.inputs = some tin)
    (hfresh : ∀ k ∈ outKeys tx, k ∉ keys m) :
    storeTotal (apply_tx m tx) = storeTotal m - tin + totalOut tx := by
  rw [apply_tx_eq,
    storeTotal_insFold_fresh _ _ (by rw [outEntries_keys]; exact outKeys_nodup tx) ?_,
    storeTotal_delFold _ _ _ hnd (by exact hinnd) hsum, outEntries_amounts]
  intro p hp hmem
  exact hfresh p.1 (mem_outKeys_of_mem_outEntries tx p hp)
    ((keys_delFold_sublist _ _).subset hmem)

/-! ## Lemmas: applying a whole mempool -/

theorem dictGet_applyAll_ne (txs : List Tx) :
    ∀ (m : UtxoMap) (k : Key),
      (∀ tx ∈ txs, k ∉ inKeys tx) → (∀ tx ∈ txs, k ∉ outKeys tx) →
      dictGet k (txs.foldl apply_tx m) = dictGet k m := by
  induction txs with
  | nil => intro m k _ _; rfl
  | cons tx rest ih =>
    intro m k hin hout
    rw [List.foldl_cons,
      ih _ _ (fun t ht => hin t (by simp [ht])) (fun t ht => hout t (by simp [ht])),
      dictGet_apply_tx_ne _ _ _ (hin tx (by simp)) (hout tx (by simp))]

theorem dictGet_applyAll_none (txs : List Tx) :
    ∀ (m : UtxoMap) (k : Key),
      dictGet k m = none → (∀ tx ∈ txs, k ∉ outKeys tx) →
      dictGet k (txs.foldl apply_tx m) = none := by
  induction txs with
  | nil => intro m k h _; exact h
  | cons tx rest ih =>
    intro m k h hout
    rw [List.foldl_cons]
    exact ih _ _ (dictGet_apply_tx_none _ _ _ h (hout tx (by simp)))
      fun t ht => hout t (by simp [ht])

theorem dictGet_applyAll_consumed (txs : List Tx) :
    ∀ (m : UtxoMap) (k : Key),
      (∃ tx ∈ txs, k ∈ inKeys tx) → (∀ tx ∈ txs, k ∉ outKeys tx) →
      dictGet k (txs.foldl apply_tx m) = none := by
  induction txs with
  | nil => rintro m k ⟨tx, h, _⟩ _; simp at h
  | cons tx rest ih =>
    rintro m k ⟨t, ht, hk⟩ hout
    rw [List.foldl_cons]
    rcases List.mem_cons.mp ht with rfl | hmem
    · exact dictGet_applyAll_none rest _ _
        (dictGet_apply_tx_consumed _ _ _ hk (hout t (by simp)))
        fun t' ht' => hout t' (by simp [ht'])
    · exact ih _ _ ⟨t, hmem, hk⟩ fun t' ht' => hout t' (by simp [ht'])

theorem dictGet_applyAll_output (txs : List Tx) :
    ∀ (m : UtxoMap),
      (txs.flatMap outKeys).Nodup →
      (∀ k ∈ txs.flatMap outKeys, ∀ tx ∈ txs, k ∉ inKeys tx) →
      ∀ tx ∈ txs, ∀ e ∈ outEntries tx,
        dictGet e.1 (txs.foldl apply_tx m) = some e.2 := by
  induction txs with
  | nil => intro m _ _ tx h; simp at h
  | cons tx0 rest ih =>
    intro m hnd hdisj tx htx e he
    have hnd' : (outKeys tx0 ++ rest.flatMap outKeys).Nodup := by
      simpa [List.flatMap_cons] using hnd
    obtain ⟨hnd0, hndrest, hndinter⟩ := List.nodup_append.mp hnd'
    rw [List.foldl_cons]
    rcases List.mem_cons.mp htx with rfl | hmem
    · have hek : e.1 ∈ outKeys tx := mem_outKeys_of_mem_outEntries _ _ he
      have hefl : e.1 ∈ (tx :: rest).flatMap outKeys := by
        simp only [List.flatMap_cons, List.mem_append]
        exact Or.inl hek
      refine Eq.trans (dictGet_applyAll_ne rest _ _ ?_ ?_)
        (dictGet_apply_tx_output _ _ _ he)
      · intro t ht
        exact hdisj e.1 hefl t (by simp [ht])
      · intro t ht hmem'
        exact hndinter hek (List.mem_flatMap.mpr ⟨t, ht, hmem'⟩)
    · refine ih _ hndrest ?_ tx hmem e he
      intro k hk t ht
      refine hdisj k ?_ t (by simp [ht])
      simp only [List.flatMap_cons, List.mem_append]
      exact Or.inr hk

theorem storeTotal_applyAll_le (txs : List Tx) :
    ∀ (m : UtxoMap),
      (keys m).Nodup →
      (∀ tx ∈ txs, ∃ t, sumInputs m tx.inputs = some t ∧ totalOut tx ≤ t) →
      (txs.flatMap inKeys).Nodup →
      (txs.flatMap outKeys).Nodup →
      (∀ k ∈ txs.flatMap outKeys, k ∉ keys m) →
      storeTotal (txs.foldl apply_tx m) ≤ storeTotal m := by
  induction txs with
  | nil => intro m _ _ _ _ _; exact le_refl _
  | cons tx rest ih =>
    intro m hnd hver hins houts hfresh
    rw [List.foldl_cons]
    obtain ⟨tin, hsum, hle⟩ := hver tx (by simp)
    have hins' : (inKeys tx ++ rest.flatMap inKeys).Nodup := by
      simpa [List.flatMap_cons] using hins
    have houts' : (outKeys tx ++ rest.flatMap outKeys).Nodup := by
      simpa [List.flatMap_cons] using houts
    obtain ⟨hintx, hinrest, hininter⟩ := List.nodup_append.mp hins'
    obtain ⟨houttx, houtrest, houtinter⟩ := List.nodup_append.mp houts'
    have hfreshtx : ∀ k ∈ outKeys tx, k ∉ keys m := by
      intro k hk
      refine hfresh k ?_
      simp only [List.flatMap_cons, List.mem_append]
      exact Or.inl hk
    have hstep : storeTotal (apply_tx m tx) = storeTotal m - tin + totalOut tx :=
      storeTotal_apply_tx _ _ _ hnd hintx hsum hfreshtx
    have hnd' : (keys (apply_tx m tx)).Nodup := keys_apply_tx_nodup _ _ hnd hfreshtx
    have hget' : ∀ t ∈ rest, ∀ i ∈ t.inputs,
        dictGet (i.txid, i.vout) (apply_tx m tx) = dictGet (i.txid, i.vout) m := by
      intro t ht i hi
      refine dictGet_apply_tx_ne _ _ _ ?_ ?_
      · intro hmem
        exact hininter hmem
          (List.mem_flatMap.mpr ⟨t, ht, List.mem_map_of_mem _ hi⟩)
      · intro hmem
        obtain ⟨s, hs, _⟩ := hver t (by simp [ht])
        obtain ⟨u, hu⟩ := sumInputs_resolves _ _ _ hs i hi
        have hkm : (i.txid, i.vout) ∈ keys m := by
          by_contra hc
          rw [(dictGet_eq_none_iff _ _).mpr hc] at hu
          cases hu
        exact hfreshtx _ hmem hkm
    have hver' : ∀ t ∈ rest,
        ∃ s, sumInputs (apply_tx m tx) t.inputs = some s ∧ totalOut t ≤ s := by
      intro t ht
      obtain ⟨s, hs, hle'⟩ := hver t (by simp [ht])
      exact ⟨s, by rw [sumInputs_congr _ m t.inputs (hget' t ht)]; exact hs, hle'⟩
    have hfresh' : ∀ k ∈ rest.flatMap outKeys, k ∉ keys (apply_tx m tx) := by
      intro k hk hkm
      rcases mem_keys_apply_tx m tx k hfreshtx hkm with h | h
      · refine hfresh k ?_ h
        simp only [List.flatMap_cons, List.mem_append]
        exact Or.inr hk
      · exact houtinter h hk
    calc storeTotal (rest.foldl apply_tx (apply_tx m tx))
        ≤ storeTotal (apply_tx m tx) := ih _ hnd' hver' hinrest houtrest hfresh'
      _ = storeTotal m - tin + totalOut tx := hstep
      _ ≤ storeTotal m := by linarith

/-! ## Lemmas: proof-of-work search and `mine_block` -/

theorem powSearch_spec (H : String → String) (d : Nat) (s : String) :
    ∀ (fuel start nonce : Nat) (hsh : String),
      powSearch H d s fuel start = some (nonce, hsh) →
      start ≤ nonce ∧ hsh = H (s ++ toString nonce) ∧ hitsTarget d hsh = true ∧
        ∀ j, start ≤ j → j < nonce → hitsTarget d (H (s ++ toString j)) = false := by
  intro fuel
  induction fuel with
  | zero => intro start nonce hsh h; cases h
  | succ f ih =>
    intro start nonce hsh h
    rw [powSearch] at h
    by_cases ht : hitsTarget d (H (s ++ toString start)) = true
    · rw [if_pos ht] at h
      obtain ⟨h1, h2⟩ := Prod.mk.injEq .. ▸ Option.some.inj h
      subst h1
      subst h2
      exact ⟨le_refl _, rfl, ht, fun j hj hj2 => absurd hj (by omega)⟩
    · rw [if_neg ht] at h
      obtain ⟨h1, h2, h3, h4⟩ := ih (start + 1) nonce hsh h
      refine ⟨by omega, h2, h3, ?_⟩
      intro j hj hlt
      rcases Nat.eq_or_lt_of_le hj with rfl | hj'
      · exact Bool.not_eq_true _ |>.mp ht |> (fun hh => by simpa using hh)
      · exact h4 j (by omega) hlt

theorem powSearch_isSome (H : String → String) (d : Nat) (s : String) :
    ∀ (fuel start : Nat),
      (∃ j, j < fuel ∧ hitsTarget d (H (s ++ toString (start + j))) = true) →
      (powSearch H d s fuel start).isSome = true := by
  intro fuel
  induction fuel with
  | zero => rintro start ⟨j, hj, _⟩; omega
  | succ f ih =>
    rintro start ⟨j, hj, hhit⟩
    rw [powSearch]
    by_cases ht : hitsTarget d (H (s ++ toString start)) = true
    · rw [if_pos ht]; rfl
    · rw [if_neg ht]
      cases j with
      | zero => simp only [Nat.add_zero] at hhit; exact absurd hhit ht
      | succ j' =>
        refine ih (start + 1) ⟨j', by omega, ?_⟩
        rw [show start + 1 + j' = start + (j' + 1) by omega]
        exact hhit

theorem mine_block_some (H : String → String) (showNum : ℚ → String) (fuel : Nat)
    (bc : Blockchain) (miner ts : String) (bc' : Blockchain)
    (h : mine_block H showNum fuel bc miner ts = some bc') :
    ∃ nonce hsh,
      powSearch H bc.difficulty (blockJson showNum ts bc.mempool miner 0) fuel 0
        = some (nonce, hsh) ∧
      bc' = { bc with
        utxos := bc.mempool.foldl apply_tx bc.utxos,
        mempool := [],
        chain := bc.chain ++ [Block.mk ts bc.mempool miner nonce hsh] } := by
  rw [mine_block] at h
  cases hp : powSearch H bc.difficulty (blockJson showNum ts bc.mempool miner 0) fuel 0 with
  | none => rw [hp] at h; cases h
  | some p =>
    rw [hp] at h
    exact ⟨p.1, p.2, rfl, (Option.some.inj h).symm⟩

theorem verify_tx_iff (bc : Blockchain) (tx : Tx) :
    verify_tx bc tx = true
      ↔ ∃ t, sumInputs bc.utxos tx.inputs = some t ∧ totalOut tx ≤ t := by
  rw [verify_tx]
  cases h : sumInputs bc.utxos tx.inputs with
  | none => simp
  | some t => simp

/-! ## Lemmas: the greedy input selection of `create_tx` -/

theorem selectInputs_no_owned (address : String) (target : ℚ) :
    ∀ (m : UtxoMap) (ins : List TxIn) (tot : ℚ),
      (∀ p ∈ m, p.2.address ≠ address) →
      selectInputs address target m ins tot = (ins, tot) := by
  intro m
  induction m with
  | nil => intro ins tot _; rfl
  | cons p rest ih =>
    intro ins tot h
    obtain ⟨k, u⟩ := p
    simp only [selectInputs, if_neg (h (k, u) (by simp))]
    exact ih _ _ fun q hq => h q (by simp [hq])

theorem selectInputs_mono (address : String) (target : ℚ) :
    ∀ (m : UtxoMap) (ins : List TxIn) (tot : ℚ),
      (∀ p ∈ m, 0 < p.2.amount) →
      tot ≤ (selectInputs address target m ins tot).2 := by
  intro m
  induction m with
  | nil => intro ins tot _; exact le_refl _
  | cons p rest ih =>
    intro ins tot h
    obtain ⟨k, u⟩ := p
    have hu : 0 < u.amount := h (k, u) (by simp)
    by_cases ha : u.address = address
    · simp only [selectInputs, if_pos ha]
      by_cases hb : target ≤ tot + u.amount
      · rw [if_pos hb]
        show tot ≤ tot + u.amount
        linarith
      · rw [if_neg hb]
        calc tot ≤ tot + u.amount := by linarith
          _ ≤ _ := ih _ _ fun q hq => h q (by simp [hq])
    · simp only [selectInputs, if_neg ha]
      exact ih _ _ fun q hq => h q (by simp [hq])

theorem selectInputs_owned_pos (address : String) (target : ℚ) :
    ∀ (m : UtxoMap) (ins : List TxIn) (tot : ℚ),
      (∀ p ∈ m, 0 < p.2.amount) →
      (∃ p ∈ m, p.2.address = address) →
      tot < (selectInputs address target m ins tot).2 := by
  intro m
  induction m with
  | nil => rintro ins tot _ ⟨p, hp, _⟩; simp at hp
  | cons q rest ih =>
    rintro ins tot h hex
    obtain ⟨k, u⟩ := q
    have hu : 0 < u.amount := h (k, u) (by simp)
    by_cases ha : u.address = address
    · simp only [selectInputs, if_pos ha]
      by_cases hb : target ≤ tot + u.amount
      · rw [if_pos hb]
        show tot < tot + u.amount
        linarith
      · rw [if_neg hb]
        have h1 : tot < tot + u.amount := by linarith
        exact lt_of_lt_of_le h1
          (selectInputs_mono address target rest _ _ fun q hq => h q (by simp [hq]))
    · simp only [selectInputs, if_neg ha]
      rcases hex with ⟨p, hp, hpa⟩
      rcases List.mem_cons.mp hp with rfl | hmem
      · exact absurd hpa ha
      · exact ih _ _ (fun q hq => h q (by simp [hq])) ⟨p, hmem, hpa⟩

/-! ## Lemmas: zero difficulty and first-try hits -/

theorem hitsTarget_zero (s : String) : hitsTarget 0 s = true := by
  simp [hitsTarget]

theorem powSearch_hit (H : String → String) (d : Nat) (s : String) (fuel nonce : Nat)
    (h : hitsTarget d (H (s ++ toString nonce)) = true) :
    powSearch H d s (fuel + 1) nonce = some (nonce, H (s ++ toString nonce)) := by
  simp [powSearch, h]

/-! ## Lemmas: the shape of `create_tx` results -/

theorem create_tx_outputs_eq (mkTxid : List TxIn → List TxOut → ℚ → String)
    (sign : String → String) (address : String) (bc : Blockchain)
    (recipients : List (String × ℚ)) (now : ℚ) (tx : Tx)
    (h : create_tx mkTxid sign address bc recipients now = some tx) :
    tx.outputs
      = (recipients.map fun r => TxOut.mk r.1 r.2)
        ++ (if 0 < round4 ((selectInputs address ((recipients.map Prod.snd).sum) bc.utxos [] 0).2
                - (recipients.map Prod.snd).sum - 1 / 10000)
            then [TxOut.mk address
                (round4 ((selectInputs address ((recipients.map Prod.snd).sum) bc.utxos [] 0).2
                  - (recipients.map Prod.snd).sum - 1 / 10000))]
            else []) := by
  simp only [create_tx] at h
  by_cases h0 : (selectInputs address ((recipients.map Prod.snd).sum) bc.utxos [] 0).2 = 0
  · rw [if_pos h0] at h; cases h
  · rw [if_neg h0] at h
    obtain rfl := (Option.some.inj h).symm
    by_cases hc : 0 < round4 ((selectInputs address ((recipients.map Prod.snd).sum) bc.utxos [] 0).2
        - (recipients.map Prod.snd).sum - 1 / 10000)
    · simp only [if_pos hc]
    · simp only [if_neg hc, List.append_nil]

/-! ## The genesis-and-spend scenario -/

/-- Helper: `verify_tx` reads only the inputs and outputs of the transaction
dict, never its timestamp, txid or signature. -/
theorem verify_tx_ignores (bc : Blockchain) (ins : List TxIn) (outs : List TxOut)
    (t₁ t₂ : ℚ) (i₁ i₂ : String) (s₁ s₂ : Option String) :
    verify_tx bc (Tx.mk ins outs t₁ i₁ s₁) = verify_tx bc (Tx.mk ins outs t₂ i₂ s₂) := rfl

set_option maxRecDepth 2000 in
theorem genesis_spend_scenario_aux (tid : String) (sig : Option String)
    (H : String → String) (showNum : ℚ → String) (ts : String) :
    ∃ bc₂,
      (add_tx (Blockchain.mk [] [(("genesis1", 0), UTXO.mk "genesis1" 0 "A" (3 / 2))] 0 [])
          (Tx.mk [TxIn.mk "genesis1" 0]
            [TxOut.mk "B" (3 / 10), TxOut.mk "A" (11999 / 10000)] 0 tid sig)).2 = true ∧
      mine_block H showNum 1
          (add_tx (Blockchain.mk [] [(("genesis1", 0), UTXO.mk "genesis1" 0 "A" (3 / 2))] 0 [])
            (Tx.mk [TxIn.mk "genesis1" 0]
              [TxOut.mk "B" (3 / 10), TxOut.mk "A" (11999 / 10000)] 0 tid sig)).1
          "M" ts = some bc₂ ∧
      balanceOf bc₂ "A" = 11999 / 10000 ∧
      balanceOf bc₂ "B" = 3 / 10 := by
  set txv : Tx := Tx.mk [TxIn.mk "genesis1" 0]
    [TxOut.mk "B" (3 / 10), TxOut.mk "A" (11999 / 10000)] 0 tid sig with htxv
  have hver : verify_tx
      (Blockchain.mk [] [(("genesis1", 0), UTXO.mk "genesis1" 0 "A" (3 / 2))] 0 []) txv = true := by
    rw [htxv, verify_tx_ignores _ _ _ 0 0 tid "" sig none]
    decide
  have hadd : add_tx
      (Blockchain.mk [] [(("genesis1", 0), UTXO.mk "genesis1" 0 "A" (3 / 2))] 0 []) txv
      = (Blockchain.mk [] [(("genesis1", 0), UTXO.mk "genesis1" 0 "A" (3 / 2))] 0 [txv], true) := by
    rw [add_tx, hver, if_pos rfl]
    rfl
  have happly : apply_tx [(("genesis1", 0), UTXO.mk "genesis1" 0 "A" (3 / 2))] txv
      = [((tid, 0), UTXO.mk tid 0 "B" (3 / 10)), ((tid, 1), UTXO.mk tid 1 "A" (11999 / 10000))] := by
    rw [apply_tx_eq]
    have h1 : txv.inputs.foldl (fun m i => dictDel (i.txid, i.vout) m)
        [(("genesis1", 0), UTXO.mk "genesis1" 0 "A" (3 / 2))] = [] := rfl
    have h2 : outEntries txv
        = [((tid, 0), UTXO.mk tid 0 "B" (3 / 10)),
           ((tid, 1), UTXO.mk tid 1 "A" (11999 / 10000))] := rfl
    rw [h1, h2]
    show dictSet (tid, 1) (UTXO.mk tid 1 "A" (11999 / 10000))
        (dictSet (tid, 0) (UTXO.mk tid 0 "B" (3 / 10)) []) = _
    rw [show dictSet (tid, 0) (UTXO.mk tid 0 "B" (3 / 10)) []
        = [((tid, 0), UTXO.mk tid 0 "B" (3 / 10))] from rfl]
    rw [dictSet_of_not_mem _ _ _ (by simp [keys])]
    rfl
  refine ⟨Blockchain.mk
      [Block.mk ts [txv] "M" 0 (H (blockJson showNum ts [txv] "M" 0 ++ toString 0))]
      [((tid, 0), UTXO.mk tid 0 "B" (3 / 10)), ((tid, 1), UTXO.mk tid 1 "A" (11999 / 10000))]
      0 [], by rw [hadd], ?_, ?_, ?_⟩
  · rw [hadd]
    show mine_block H showNum 1
        (Blockchain.mk [] [(("genesis1", 0), UTXO.mk "genesis1" 0 "A" (3 / 2))] 0 [txv])
        "M" ts = _
    simp only [mine_block]
    rw [show powSearch H 0 (blockJson showNum ts [txv] "M" 0) 1 0
        = some (0, H (blockJson showNum ts [txv] "M" 0 ++ toString 0))
      from powSearch_hit H 0 (blockJson showNum ts [txv] "M" 0) 0 0 (hitsTarget_zero _)]
    show some (Blockchain.mk
        ([] ++ [Block.mk ts [txv] "M" 0 (H (blockJson showNum ts [txv] "M" 0 ++ toString 0))])
        ([txv].foldl apply_tx [(("genesis1", 0), UTXO.mk "genesis1" 0 "A" (3 / 2))]) 0 []) = _
    rw [show ([txv].foldl apply_tx [(("genesis1", 0), UTXO.mk "genesis1" 0 "A" (3 / 2))])
        = apply_tx [(("genesis1", 0), UTXO.mk "genesis1" 0 "A" (3 / 2))] txv from rfl, happly]
    rfl
  · have hf : ([((tid, 0), UTXO.mk tid 0 "B" (3 / 10)),
        ((tid, 1), UTXO.mk tid 1 "A" (11999 / 10000))].filter
          fun p => decide (p.2.address = "A"))
        = [((tid, 1), UTXO.mk tid 1 "A" (11999 / 10000))] := by simp
    show (((Blockchain.mk _ _ 0 []).utxos.filter fun p => decide (p.2.address = "A")).map
        fun p => p.2.amount).sum = (11999 : ℚ) / 10000
    rw [show (Blockchain.mk
        [Block.mk ts [txv] "M" 0 (H (blockJson showNum ts [txv] "M" 0 ++ toString 0))]
        [((tid, 0), UTXO.mk tid 0 "B" (3 / 10)), ((tid, 1), UTXO.mk tid 1 "A" (11999 / 10000))]
        0 []).utxos
      = [((tid, 0), UTXO.mk tid 0 "B" (3 / 10)),
         ((tid, 1), UTXO.mk tid 1 "A" (11999 / 10000))] from rfl, hf,
      show ([((tid, 1), UTXO.mk tid 1 "A" (11999 / 10000))].map fun p => p.2.amount)
        = [(11999 : ℚ) / 10000] from rfl]
    show (11999 : ℚ) / 10000 + 0 = 11999 / 10000
    exact add_zero _
  · have hf : ([((tid, 0), UTXO.mk tid 0 "B" (3 / 10)),
        ((tid, 1), UTXO.mk tid 1 "A" (11999 / 10000))].filter
          fun p => decide (p.2.address = "B"))
        = [((tid, 0), UTXO.mk tid 0 "B" (3 / 10))] := by simp
    show (((Blockchain.mk _ _ 0 []).utxos.filter fun p => decide (p.2.address = "B")).map
        fun p => p.2.amount).sum = (3 : ℚ) / 10
    rw [show (Blockchain.mk
        [Block.mk ts [txv] "M" 0 (H (blockJson showNum ts [txv] "M" 0 ++ toString 0))]
        [((tid, 0), UTXO.mk tid 0 "B" (3 / 10)), ((tid, 1), UTXO.mk tid 1 "A" (11999 / 10000))]
        0 []).utxos
      = [((tid, 0), UTXO.mk tid 0 "B" (3 / 10)),
         ((tid, 1), UTXO.mk tid 1 "A" (11999 / 10000))] from rfl, hf,
      show ([((tid, 0), UTXO.mk tid 0 "B" (3 / 10))].map fun p => p.2.amount)
        = [(3 : ℚ) / 10] from rfl]
    show (3 : ℚ) / 10 + 0 = 3 / 10
    exact add_zero _

set_option maxRecDepth 2000 in
theorem genesis_spend_scenario (mkTxid : List TxIn → List TxOut → ℚ → String)
    (sign : String → String) (H : String → String) (showNum : ℚ → String) (ts : String) :
    ∃ tx bc₂,
      create_tx mkTxid sign "A" (genesis (Blockchain.mk [] [] 0 []) "A" (3 / 2))
          [("B", 3 / 10)] 0 = some tx ∧
      (add_tx (genesis (Blockchain.mk [] [] 0 []) "A" (3 / 2)) tx).2 = true ∧
      mine_block H showNum 1 (add_tx (genesis (Blockchain.mk [] [] 0 []) "A" (3 / 2)) tx).1
          "M" ts = some bc₂ ∧
      balanceOf bc₂ "A" = 11999 / 10000 ∧
      balanceOf bc₂ "B" = 3 / 10 := by
  have hgen : genesis (Blockchain.mk [] [] 0 []) "A" (3 / 2)
      = Blockchain.mk [] [(("genesis1", 0), UTXO.mk "genesis1" 0 "A" (3 / 2))] 0 [] := rfl
  obtain ⟨bc₂, ha, hm, hA, hB⟩ := genesis_spend_scenario_aux
    (mkTxid [TxIn.mk "genesis1" 0] [TxOut.mk "B" (3 / 10), TxOut.mk "A" (11999 / 10000)] 0)
    (some (sign (mkTxid [TxIn.mk "genesis1" 0]
      [TxOut.mk "B" (3 / 10), TxOut.mk "A" (11999 / 10000)] 0)))
    H showNum ts
  refine ⟨Tx.mk [TxIn.mk "genesis1" 0]
      [TxOut.mk "B" (3 / 10), TxOut.mk "A" (11999 / 10000)] 0
      (mkTxid [TxIn.mk "genesis1" 0] [TxOut.mk "B" (3 / 10), TxOut.mk "A" (11999 / 10000)] 0)
      (some (sign (mkTxid [TxIn.mk "genesis1" 0]
        [TxOut.mk "B" (3 / 10), TxOut.mk "A" (11999 / 10000)] 0))),
    bc₂, rfl, ?_, ?_, hA, hB⟩
  · rw [hgen]; exact ha
  · rw [hgen]; exact hm

/-! ## The claims -/

/-- C2: whenever any input of a transaction references an OutputRef
`(txid, vout)` absent from the UTXO store, `add_tx` returns `False` and the
whole ledger state — store, mempool, and chain — is exactly unchanged. -/
theorem C2_absent_input_rejected (bc : Blockchain) (tx : Tx) (i : TxIn)
    (hi : i ∈ tx.inputs)
    (habs : dictGet (i.txid, i.vout) bc.utxos = none) :
    add_tx bc tx = (bc, false) := by
  have hv : verify_tx bc tx = false := by
    rw [verify_tx, sumInputs_none_of_absent bc.utxos tx.inputs i hi habs]
  rw [add_tx, hv]
  simp

/-- Witness for C2: a concrete empty store rejects a transaction whose single
input is unresolved, leaving the state unchanged. -/
theorem C2_witness :
    TxIn.mk "g" 0 ∈ (Tx.mk [TxIn.mk "g" 0] [] 0 "t" none).inputs ∧
    dictGet ("g", 0) (Blockchain.mk [] [] 3 []).utxos = none ∧
    add_tx (Blockchain.mk [] [] 3 []) (Tx.mk [TxIn.mk "g" 0] [] 0 "t" none)
      = (Blockchain.mk [] [] 3 [], false) :=
  ⟨by simp, rfl, C2_absent_input_rejected _ _ (TxIn.mk "g" 0) (by simp) rfl⟩

/-- C6 counterexample: two transactions identical except for the signature
are both admitted, but the resulting ledger states are not equal — the
mempool stores the transaction together with its signature — refuting the
claim's "yields the same resulting ledger state". -/
theorem C6_counterexample :
    (add_tx oneCoinBC (Tx.mk [TxIn.mk "g" 0] [] 0 "t" (some "a"))).2 = true ∧
    (add_tx oneCoinBC (Tx.mk [TxIn.mk "g" 0] [] 0 "t" (some "b"))).2 = true ∧
    (add_tx oneCoinBC (Tx.mk [TxIn.mk "g" 0] [] 0 "t" (some "a"))).1
      ≠ (add_tx oneCoinBC (Tx.mk [TxIn.mk "g" 0] [] 0 "t" (some "b"))).1 := by
  refine ⟨rfl, rfl, ?_⟩
  decide

/-- C6 (amended): admission never reads the signature: for two transactions
identical except in (or lacking) the signature field, `add_tx` returns the
same boolean, and the resulting states agree on the UTXO store, the chain,
the difficulty, and on the mempool up to the stored signature fields. -/
theorem C6_signature_never_read (bc : Blockchain) (tx : Tx) (s₁ s₂ : Option String) :
    (add_tx bc { tx with signature := s₁ }).2 = (add_tx bc { tx with signature := s₂ }).2 ∧
    (add_tx bc { tx with signature := s₁ }).1.utxos
      = (add_tx bc { tx with signature := s₂ }).1.utxos ∧
    (add_tx bc { tx with signature := s₁ }).1.chain
      = (add_tx bc { tx with signature := s₂ }).1.chain ∧
    (add_tx bc { tx with signature := s₁ }).1.difficulty
      = (add_tx bc { tx with signature := s₂ }).1.difficulty ∧
    (add_tx bc { tx with signature := s₁ }).1.mempool.map eraseSig
      = (add_tx bc { tx with signature := s₂ }).1.mempool.map eraseSig := by
  have hv : verify_tx bc { tx with signature := s₁ }
      = verify_tx bc { tx with signature := s₂ } := rfl
  rw [add_tx, add_tx, hv]
  by_cases h : verify_tx bc { tx with signature := s₂ } = true
  · simp [h, eraseSig]
  · simp [h]

/-- C7 counterexample: a sender owning exactly one zero-amount UTXO does own
a UTXO, yet `create_tx` returns `none`, because the builder tests
`total_in == 0` rather than "no input was found". -/
theorem C7_counterexample :
    create_tx (fun _ _ _ => "") (fun _ => "") "A" zeroCoinBC [("B", 3 / 10)] 0 = none ∧
    (("g", 0), UTXO.mk "g" 0 "A" 0) ∈ zeroCoinBC.utxos ∧
    (UTXO.mk "g" 0 "A" 0).address = "A" :=
  ⟨rfl, by simp [zeroCoinBC], rfl⟩

/-- C7 (amended): when every UTXO in the store has positive amount,
`create_tx` returns `none` exactly when the sender owns no UTXO; in
particular, with at least one owned UTXO it returns a transaction even when
the owned total does not cover the requested total (rejection is left to the
ledger). -/
theorem C7_none_iff_no_owned (mkTxid : List TxIn → List TxOut → ℚ → String)
    (sign : String → String) (address : String) (bc : Blockchain)
    (recipients : List (String × ℚ)) (now : ℚ)
    (hpos : ∀ p ∈ bc.utxos, 0 < p.2.amount) :
    create_tx mkTxid sign address bc recipients now = none
      ↔ ∀ p ∈ bc.utxos, p.2.address ≠ address := by
  constructor
  · intro h p hp ha
    have hlt : 0 < (selectInputs address ((recipients.map Prod.snd).sum) bc.utxos [] 0).2 :=
      selectInputs_owned_pos address _ bc.utxos [] 0 hpos ⟨p, hp, ha⟩
    simp only [create_tx] at h
    rw [if_neg fun he => absurd (he ▸ hlt) (lt_irrefl 0)] at h
    cases h
  · intro h
    simp only [create_tx, selectInputs_no_owned address _ bc.utxos [] 0 h]
    simp

/-- Witness for C7: a sender owning nothing in an all-positive store gets
`none`, via the amended equivalence. -/
theorem C7_witness :
    (∀ p ∈ oneCoinBC.utxos, 0 < p.2.amount) ∧
    (create_tx (fun _ _ _ => "") (fun _ => "") "B" oneCoinBC [("A", 1)] 0 = none
      ↔ ∀ p ∈ oneCoinBC.utxos, p.2.address ≠ "B") :=
  ⟨by decide, C7_none_iff_no_owned _ _ _ _ _ _ (by decide)⟩

/-- C9: duplicated input references are resolved and summed once per
occurrence: the concrete transaction `dupSpendTx` spends the single live
1-unit UTXO of `oneCoinBC` twice, is admitted with a declared output total
of 2 exceeding the single UTXO's amount, and mining it strictly increases
the total value held in the store. -/
theorem C9_duplicate_input_double_count :
    sumInputs oneCoinBC.utxos dupSpendTx.inputs = some 2 ∧
    totalOut dupSpendTx = 2 ∧
    (UTXO.mk "g" 0 "A" 1).amount < 2 ∧
    (add_tx oneCoinBC dupSpendTx).2 = true ∧
    (mine_block (fun _ => "") (fun _ => "") 1 (add_tx oneCoinBC dupSpendTx).1 "m" "t").map
        (fun st => decide (storeTotal oneCoinBC.utxos < storeTotal st.utxos))
      = some true := by
  refine ⟨by decide, by decide, by norm_num, rfl, rfl⟩

/-- C1 counterexample: from a reachable state (`dupSpendTx5` is admitted by
`add_tx`), `mine_block` strictly increases the total value in the UTXO
store, refuting unconditional conservation. -/
theorem C1_counterexample :
    (add_tx threeCoinBC dupSpendTx5).2 = true ∧
    (mine_block (fun _ => "") (fun _ => "") 1 (add_tx threeCoinBC dupSpendTx5).1 "m" "t").map
        (fun st => decide (storeTotal st.utxos ≤ storeTotal threeCoinBC.utxos))
      = some false :=
  ⟨rfl, rfl⟩

/-- C1 (amended): value is conserved across `mine_block` provided no output
reference is consumed twice across the block's transactions, each included
transaction verifies against the pre-block store, the store's keys are
duplicate-free, and the block's newly created output keys are mutually
distinct and absent from the pre-block store: the total amount in the UTXO
store never increases. -/
theorem C1_conservation (H : String → String) (showNum : ℚ → String) (fuel : Nat)
    (bc : Blockchain) (miner ts : String) (bc' : Blockchain)
    (hnd : (keys bc.utxos).Nodup)
    (hver : ∀ tx ∈ bc.mempool, verify_tx bc tx = true)
    (hins : (bc.mempool.flatMap inKeys).Nodup)
    (houts : (bc.mempool.flatMap outKeys).Nodup)
    (hfresh : ∀ k ∈ bc.mempool.flatMap outKeys, k ∉ keys bc.utxos)
    (h : mine_block H showNum fuel bc miner ts = some bc') :
    storeTotal bc'.utxos ≤ storeTotal bc.utxos := by
  obtain ⟨nonce, hsh, _, rfl⟩ := mine_block_some _ _ _ _ _ _ _ h
  exact storeTotal_applyAll_le bc.mempool bc.utxos hnd
    (fun tx htx => (verify_tx_iff bc tx).mp (hver tx htx)) hins houts hfresh

/-- Witness for C1: the concrete one-transaction mine of `simpleMineBC`
satisfies every hypothesis and conserves the store total. -/
theorem C1_witness :
    (keys simpleMineBC.utxos).Nodup ∧
    (∀ tx ∈ simpleMineBC.mempool, verify_tx simpleMineBC tx = true) ∧
    (simpleMineBC.mempool.flatMap inKeys).Nodup ∧
    (simpleMineBC.mempool.flatMap outKeys).Nodup ∧
    (∀ k ∈ simpleMineBC.mempool.flatMap outKeys, k ∉ keys simpleMineBC.utxos) ∧
    mine_block (fun _ => "") (fun _ => "") 1 simpleMineBC "m" "t"
      = some (Blockchain.mk
          [Block.mk "t" [Tx.mk [TxIn.mk "g" 0] [TxOut.mk "B" 1] 0 "x" none] "m" 0 ""]
          [(("x", 0), UTXO.mk "x" 0 "B" 1)] 0 []) ∧
    storeTotal (Blockchain.mk
          [Block.mk "t" [Tx.mk [TxIn.mk "g" 0] [TxOut.mk "B" 1] 0 "x" none] "m" 0 ""]
          [(("x", 0), UTXO.mk "x" 0 "B" 1)] 0 []).utxos
      ≤ storeTotal simpleMineBC.utxos :=
  ⟨by decide, by decide, by decide, by decide, by decide, rfl,
    C1_conservation (fun _ => "") (fun _ => "") 1 simpleMineBC "m" "t"
      (Blockchain.mk
        [Block.mk "t" [Tx.mk [TxIn.mk "g" 0] [TxOut.mk "B" 1] 0 "x" none] "m" 0 ""]
        [(("x", 0), UTXO.mk "x" 0 "B" 1)] 0 [])
      (by decide) (by decide) (by decide) (by decide) (by decide) rfl⟩

/-- C3 counterexample: the admitted transaction `selfRefTx` has txid `"a"`
and consumes `("a", 0)`; after mining, the consumed reference `("a", 0)` is
present in the store again (re-inserted as the transaction's own first
output), refuting "every consumed OutputRef is absent". -/
theorem C3_counterexample :
    (add_tx selfRefBC selfRefTx).2 = true ∧
    TxIn.mk "a" 0 ∈ selfRefTx.inputs ∧
    (mine_block (fun _ => "") (fun _ => "") 1 (add_tx selfRefBC selfRefTx).1 "m" "t").map
        (fun st => dictGet ("a", 0) st.utxos)
      = some (some (UTXO.mk "a" 0 "B" 1)) :=
  ⟨rfl, by simp [selfRefTx], rfl⟩

/-- C3 (amended): after every completed `mine_block` the mempool is empty
and the chain is exactly one block longer — unconditionally; and provided
the included transactions' newly created output keys are mutually distinct
and distinct from every consumed input reference, every consumed reference
is absent from the store and every declared output is present under
`(txid, index)` with its declared amount and address. -/
theorem C3_mine_block_post (H : String → String) (showNum : ℚ → String) (fuel : Nat)
    (bc : Blockchain) (miner ts : String) (bc' : Blockchain)
    (h : mine_block H showNum fuel bc miner ts = some bc') :
    bc'.mempool = [] ∧
    bc'.chain.length = bc.chain.length + 1 ∧
    ((bc.mempool.flatMap outKeys).Nodup →
      (∀ k ∈ bc.mempool.flatMap outKeys, ∀ tx ∈ bc.mempool, k ∉ inKeys tx) →
      (∀ tx ∈ bc.mempool, ∀ k ∈ inKeys tx, dictGet k bc'.utxos = none) ∧
      (∀ tx ∈ bc.mempool, ∀ e ∈ outEntries tx, dictGet e.1 bc'.utxos = some e.2)) := by
  obtain ⟨nonce, hsh, _, rfl⟩ := mine_block_some _ _ _ _ _ _ _ h
  refine ⟨rfl, by simp, fun houts hdisj => ⟨?_, ?_⟩⟩
  · intro tx htx k hk
    refine dictGet_applyAll_consumed bc.mempool bc.utxos k ⟨tx, htx, hk⟩ ?_
    intro t ht hko
    exact hdisj k (List.mem_flatMap.mpr ⟨t, ht, hko⟩) tx htx hk
  · intro tx htx e he
    exact dictGet_applyAll_output bc.mempool bc.utxos houts hdisj tx htx e he

/-- Witness for C3: the concrete one-transaction mine of `simpleMineBC`
exhibits the unconditional postconditions and, its side conditions holding,
the store postconditions as well. -/
theorem C3_witness :
    mine_block (fun _ => "") (fun _ => "") 1 simpleMineBC "m" "t"
      = some (Blockchain.mk
          [Block.mk "t" [Tx.mk [TxIn.mk "g" 0] [TxOut.mk "B" 1] 0 "x" none] "m" 0 ""]
          [(("x", 0), UTXO.mk "x" 0 "B" 1)] 0 []) ∧
    ((Blockchain.mk
          [Block.mk "t" [Tx.mk [TxIn.mk "g" 0] [TxOut.mk "B" 1] 0 "x" none] "m" 0 ""]
          [(("x", 0), UTXO.mk "x" 0 "B" 1)] 0 []).mempool = [] ∧
      (Blockchain.mk
          [Block.mk "t" [Tx.mk [TxIn.mk "g" 0] [TxOut.mk "B" 1] 0 "x" none] "m" 0 ""]
          [(("x", 0), UTXO.mk "x" 0 "B" 1)] 0 []).chain.length
        = simpleMineBC.chain.length + 1 ∧
      ((simpleMineBC.mempool.flatMap outKeys).Nodup →
        (∀ k ∈ simpleMineBC.mempool.flatMap outKeys,
          ∀ tx ∈ simpleMineBC.mempool, k ∉ inKeys tx) →
        (∀ tx ∈ simpleMineBC.mempool, ∀ k ∈ inKeys tx,
          dictGet k (Blockchain.mk
            [Block.mk "t" [Tx.mk [TxIn.mk "g" 0] [TxOut.mk "B" 1] 0 "x" none] "m" 0 ""]
            [(("x", 0), UTXO.mk "x" 0 "B" 1)] 0 []).utxos = none) ∧
        (∀ tx ∈ simpleMineBC.mempool, ∀ e ∈ outEntries tx,
          dictGet e.1 (Blockchain.mk
            [Block.mk "t" [Tx.mk [TxIn.mk "g" 0] [TxOut.mk "B" 1] 0 "x" none] "m" 0 ""]
            [(("x", 0), UTXO.mk "x" 0 "B" 1)] 0 []).utxos = some e.2))) :=
  ⟨rfl,
    C3_mine_block_post (fun _ => "") (fun _ => "") 1 simpleMineBC "m" "t"
      (Blockchain.mk
        [Block.mk "t" [Tx.mk [TxIn.mk "g" 0] [TxOut.mk "B" 1] 0 "x" none] "m" 0 ""]
        [(("x", 0), UTXO.mk "x" 0 "B" 1)] 0 [])
      rfl⟩

/-- C10: `export_data` is a pure function of the chain history and the UTXO
store — two invocations on equal state produce byte-identical output for
both files — and the CSV snapshot is exactly the header row followed by one
row per live UTXO in store iteration order. -/
theorem C10_export_deterministic (showNum : ℚ → String) (bc bc' : Blockchain)
    (hc : bc.chain = bc'.chain) (hu : bc.utxos = bc'.utxos) :
    export_data showNum bc = export_data showNum bc' ∧
    (export_data showNum bc).2
      = csvRow ["txid", "vout", "address", "amount"]
        ++ String.join (bc.utxos.map fun p =>
            csvRow [p.1.1, toString p.1.2, p.2.address, showNum p.2.amount]) := by
  constructor
  · rw [export_data, export_data, hc, hu]
  · rfl

/-- Witness for C10 at a concrete state and number renderer. -/
theorem C10_witness :
    oneCoinBC.chain = oneCoinBC.chain ∧ oneCoinBC.utxos = oneCoinBC.utxos ∧
    (export_data (fun _ => "1") oneCoinBC = export_data (fun _ => "1") oneCoinBC ∧
      (export_data (fun _ => "1") oneCoinBC).2
        = csvRow ["txid", "vout", "address", "amount"]
          ++ String.join (oneCoinBC.utxos.map fun p =>
              csvRow [p.1.1, toString p.1.2, p.2.address, (fun _ => "1") p.2.amount])) :=
  ⟨rfl, rfl, C10_export_deterministic (fun _ => "1") oneCoinBC oneCoinBC rfl rfl⟩

/-- C4 counterexample: a concrete sealed block (difficulty 0, empty mempool)
whose recorded hash is the SHA-256 digest of the skeleton serialization
concatenated with the decimal nonce; hashing the canonical serialization of
the block's own fields with its recorded nonce yields a different digest, so
the claim's equation fails. -/
theorem C4_counterexample :
    (mine_block sha256hex (fun _ => "") 1 (Blockchain.mk [] [] 0 []) "m" "t").map
        (fun st => st.chain.map fun b => (b.nonce, b.hash))
      = some [(0, "50159b3a8d2cca5640561c06c76cc69ebf958e1f7e65c781edb07773b325573b")] ∧
    sha256hex (blockJson (fun _ => "") "t" [] "m" 0)
      = "1dc722a11ecd177bebb22b88621bb95ed3230334694a0e5c5ca33156b9053f5c" ∧
    ("50159b3a8d2cca5640561c06c76cc69ebf958e1f7e65c781edb07773b325573b" : String)
      ≠ "1dc722a11ecd177bebb22b88621bb95ed3230334694a0e5c5ca33156b9053f5c" := by
  refine ⟨rfl, rfl, ?_⟩
  decide

/-- C4 (amended): for every block produced by a completed `mine_block` run,
the recorded hash is the digest of the pre-loop skeleton serialization of
`\x7btimestamp, tx, miner, nonce: 0\x7d` concatenated with the decimal
string of the recorded nonce (not of a re-serialization carrying the
recorded nonce), and its leading `difficulty` characters are all `'0'`. -/
theorem C4_hash_of_skeleton_and_nonce (H : String → String) (showNum : ℚ → String)
    (fuel : Nat) (bc : Blockchain) (miner ts : String) (bc' : Blockchain) (b : Block)
    (h : mine_block H showNum fuel bc miner ts = some bc')
    (hb : bc'.chain.getLast? = some b) :
    b.hash = H (blockJson showNum ts bc.mempool miner 0 ++ toString b.nonce) ∧
    hitsTarget bc.difficulty b.hash = true := by
  obtain ⟨nonce, hsh, hpow, rfl⟩ := mine_block_some _ _ _ _ _ _ _ h
  rw [List.getLast?_concat] at hb
  obtain rfl := Option.some.inj hb
  obtain ⟨_, h2, h3, _⟩ := powSearch_spec H bc.difficulty _ fuel 0 nonce hsh hpow
  exact ⟨h2, h3⟩

/-- Witness for C4 at a concrete difficulty-0 run with an opaque digest
function. -/
theorem C4_witness :
    mine_block (fun _ => "abc") (fun _ => "") 1 (Blockchain.mk [] [] 0 []) "m" "t"
      = some (Blockchain.mk [Block.mk "t" [] "m" 0 "abc"] [] 0 []) ∧
    (Blockchain.mk [Block.mk "t" [] "m" 0 "abc"] [] 0 []).chain.getLast?
      = some (Block.mk "t" [] "m" 0 "abc") ∧
    ((Block.mk "t" [] "m" 0 "abc").hash
        = (fun _ => "abc")
            (blockJson (fun _ => "") "t" [] "m" 0
              ++ toString (Block.mk "t" [] "m" 0 "abc").nonce) ∧
      hitsTarget (Blockchain.mk [] [] 0 [] : Blockchain).difficulty
          (Block.mk "t" [] "m" 0 "abc").hash = true) :=
  ⟨rfl, rfl, C4_hash_of_skeleton_and_nonce (fun _ => "abc") (fun _ => "") 1
    (Blockchain.mk [] [] 0 []) "m" "t"
    (Blockchain.mk [Block.mk "t" [] "m" 0 "abc"] [] 0 [])
    (Block.mk "t" [] "m" 0 "abc") rfl rfl⟩

/-- C5: for every completed mining run, the recorded nonce is the least
nonce (from 0 upward) whose digest of the pre-loop skeleton serialization
concatenated with the decimal nonce meets the difficulty target, and the
recorded hash is exactly that digest. -/
theorem C5_pow_least_nonce (H : String → String) (showNum : ℚ → String)
    (fuel : Nat) (bc : Blockchain) (miner ts : String) (bc' : Blockchain) (b : Block)
    (h : mine_block H showNum fuel bc miner ts = some bc')
    (hb : bc'.chain.getLast? = some b) :
    b.hash = H (blockJson showNum ts bc.mempool miner 0 ++ toString b.nonce) ∧
    hitsTarget bc.difficulty
      (H (blockJson showNum ts bc.mempool miner 0 ++ toString b.nonce)) = true ∧
    ∀ j < b.nonce,
      hitsTarget bc.difficulty
        (H (blockJson showNum ts bc.mempool miner 0 ++ toString j)) = false := by
  obtain ⟨nonce, hsh, hpow, rfl⟩ := mine_block_some _ _ _ _ _ _ _ h
  rw [List.getLast?_concat] at hb
  obtain rfl := Option.some.inj hb
  obtain ⟨_, h2, h3, h4⟩ := powSearch_spec H bc.difficulty _ fuel 0 nonce hsh hpow
  exact ⟨h2, h2 ▸ h3, fun j hj => h4 j (Nat.zero_le j) hj⟩

/-- Witness for C5: a digest function that first hits the target at nonce 1,
so the recorded nonce is 1 and nonce 0 is verifiably a miss. -/
theorem C5_witness :
    mine_block (fun s => if s.data.getLast? = some '1' then "0" else "a") (fun _ => "") 2
        (Blockchain.mk [] [] 1 []) "m" "t"
      = some (Blockchain.mk [Block.mk "t" [] "m" 1 "0"] [] 1 []) ∧
    (Blockchain.mk [Block.mk "t" [] "m" 1 "0"] [] 1 []).chain.getLast?
      = some (Block.mk "t" [] "m" 1 "0") ∧
    ((Block.mk "t" [] "m" 1 "0").hash
        = (fun s => if s.data.getLast? = some '1' then "0" else "a")
            (blockJson (fun _ => "") "t" [] "m" 0
              ++ toString (Block.mk "t" [] "m" 1 "0").nonce) ∧
      hitsTarget (Blockchain.mk [] [] 1 [] : Blockchain).difficulty
          ((fun s => if s.data.getLast? = some '1' then "0" else "a")
            (blockJson (fun _ => "") "t" [] "m" 0
              ++ toString (Block.mk "t" [] "m" 1 "0").nonce)) = true ∧
      ∀ j < (Block.mk "t" [] "m" 1 "0").nonce,
        hitsTarget (Blockchain.mk [] [] 1 [] : Blockchain).difficulty
          ((fun s => if s.data.getLast? = some '1' then "0" else "a")
            (blockJson (fun _ => "") "t" [] "m" 0 ++ toString j)) = false) :=
  ⟨rfl, rfl, C5_pow_least_nonce (fun s => if s.data.getLast? = some '1' then "0" else "a")
    (fun _ => "") 2 (Blockchain.mk [] [] 1 []) "m" "t"
    (Blockchain.mk [Block.mk "t" [] "m" 1 "0"] [] 1 [])
    (Block.mk "t" [] "m" 1 "0") rfl rfl⟩

/-- C8 counterexample: with a 0.00014-unit input and a 0.00003-unit payment,
the exact change 0.00014 − 0.00003 − 0.0001 = 0.00001 is positive, yet the
built transaction has no change output, because the code appends change only
when `round(totalIn - totalOut - 0.0001, 4)` is positive and that rounds to
0.0 — refuting the claim's exact-change rule. -/
theorem C8_counterexample :
    (create_tx (fun _ _ _ => "t") (fun _ => "s") "A" tinyCoinBC [("B", 3 / 100000)] 0).map
        Tx.outputs = some [TxOut.mk "B" (3 / 100000)] ∧
    (0 : ℚ) < 7 / 50000 - 3 / 100000 - 1 / 10000 ∧
    ([TxOut.mk "B" (3 / 100000)]
      ≠ [TxOut.mk "B" (3 / 100000),
         TxOut.mk "A" (7 / 50000 - 3 / 100000 - 1 / 10000)]) := by
  refine ⟨rfl, by norm_num, ?_⟩
  decide

/-- C8 (amended): the outputs of every transaction built by `create_tx` are
the requested (recipient, amount) outputs in order, followed by one change
output back to the sender of amount `round(totalIn − totalOut − 0.0001, 4)`
exactly when that rounded value is positive (and no change output
otherwise); and in the genesis scenario — 1.5 allocated to A, A sends 0.3
to B, a block is mined — balance(A) = 1.1999 and balance(B) = 0.3. -/
theorem C8_change_rule_and_scenario (mkTxid : List TxIn → List TxOut → ℚ → String)
    (sign : String → String) (address : String) (bc : Blockchain)
    (recipients : List (String × ℚ)) (now : ℚ) (tx : Tx)
    (h : create_tx mkTxid sign address bc recipients now = some tx) :
    (tx.outputs
      = (recipients.map fun r => TxOut.mk r.1 r.2)
        ++ (if 0 < round4 ((selectInputs address ((recipients.map Prod.snd).sum) bc.utxos [] 0).2
                - (recipients.map Prod.snd).sum - 1 / 10000)
            then [TxOut.mk address
                (round4 ((selectInputs address ((recipients.map Prod.snd).sum) bc.utxos [] 0).2
                  - (recipients.map Prod.snd).sum - 1 / 10000))]
            else [])) ∧
    (∀ (mkTxid' : List TxIn → List TxOut → ℚ → String) (sign' H : String → String)
        (showNum : ℚ → String) (ts : String),
      ∃ txg bc₂,
        create_tx mkTxid' sign' "A" (genesis (Blockchain.mk [] [] 0 []) "A" (3 / 2))
            [("B", 3 / 10)] 0 = some txg ∧
        (add_tx (genesis (Blockchain.mk [] [] 0 []) "A" (3 / 2)) txg).2 = true ∧
        mine_block H showNum 1
            (add_tx (genesis (Blockchain.mk [] [] 0 []) "A" (3 / 2)) txg).1 "M" ts
          = some bc₂ ∧
        balanceOf bc₂ "A" = 11999 / 10000 ∧
        balanceOf bc₂ "B" = 3 / 10) :=
  ⟨create_tx_outputs_eq mkTxid sign address bc recipients now tx h,
    fun mkTxid' sign' H showNum ts => genesis_spend_scenario mkTxid' sign' H showNum ts⟩

/-- Witness for C8 at a concrete builder call with positive rounded change. -/
theorem C8_witness :
    create_tx (fun _ _ _ => "t") (fun _ => "s") "A" oneCoinBC [("B", 1 / 2)] 0
      = some (Tx.mk [TxIn.mk "g" 0]
          [TxOut.mk "B" (1 / 2), TxOut.mk "A" (4999 / 10000)] 0 "t" (some "s")) ∧
    ((Tx.mk [TxIn.mk "g" 0]
        [TxOut.mk "B" (1 / 2), TxOut.mk "A" (4999 / 10000)] 0 "t" (some "s")).outputs
      = ([("B", (1 : ℚ) / 2)].map fun r => TxOut.mk r.1 r.2)
        ++ (if 0 < round4 ((selectInputs "A" (([("B", (1 : ℚ) / 2)].map Prod.snd).sum)
                oneCoinBC.utxos [] 0).2
                - ([("B", (1 : ℚ) / 2)].map Prod.snd).sum - 1 / 10000)
            then [TxOut.mk "A"
                (round4 ((selectInputs "A" (([("B", (1 : ℚ) / 2)].map Prod.snd).sum)
                  oneCoinBC.utxos [] 0).2
                  - ([("B", (1 : ℚ) / 2)].map Prod.snd).sum - 1 / 10000))]
            else []) ∧
      (∀ (mkTxid' : List TxIn → List TxOut → ℚ → String) (sign' H : String → String)
          (showNum : ℚ → String) (ts : String),
        ∃ txg bc₂,
          create_tx mkTxid' sign' "A" (genesis (Blockchain.mk [] [] 0 []) "A" (3 / 2))
              [("B", 3 / 10)] 0 = some txg ∧
          (add_tx (genesis (Blockchain.mk [] [] 0 []) "A" (3 / 2)) txg).2 = true ∧
          mine_block H showNum 1
              (add_tx (genesis (Blockchain.mk [] [] 0 []) "A" (3 / 2)) txg).1 "M" ts
            = some bc₂ ∧
          balanceOf bc₂ "A" = 11999 / 10000 ∧
          balanceOf bc₂ "B" = 3 / 10)) :=
  ⟨rfl, C8_change_rule_and_scenario (fun _ _ _ => "t") (fun _ => "s") "A" oneCoinBC
    [("B", 1 / 2)] 0
    (Tx.mk [TxIn.mk "g" 0] [TxOut.mk "B" (1 / 2), TxOut.mk "A" (4999 / 10000)] 0 "t" (some "s"))
    rfl⟩

end BlockchainSim
